import Mathlib

/-!
Verification of the axiom-fs repository: a shallow embedding in Lean 4 of the
path-to-query compiler (internal/compiler), the byte cache (internal/cache),
the query executor and result encoders (internal/query), the raw-query VFS
nodes (internal/vfs) and the NFS adapter's writable APL handle
(internal/nfsfs, internal/store), together with proofs of the specified
properties.

Go strings are byte slices; this embedding models them as Lean strings
(all inputs exercised by the theorems are ASCII, where the two coincide;
byte-level content is modelled as `List Nat` where byte length matters).
-/

namespace AxiomFS

/-! ## String helpers mirroring the Go standard library -/

/-- Prefix test on character lists ( strings.HasPrefix ). -/
def listIsPref : List Char → List Char → Bool
  | [], _ => true
  | _ :: _, [] => false
  | a :: as_, b :: bs => a = b && listIsPref as_ bs

/-- Occurrence of `sub` somewhere in `l` ( strings.Contains ). -/
def subOccurs (sub : List Char) : List Char → Bool
  | [] => listIsPref sub []
  | c :: rest => listIsPref sub (c :: rest) || subOccurs sub rest

/-- Go strings.Contains on strings. -/
def containsSub (s pat : String) : Bool := subOccurs pat.data s.data

/-- Go strings.HasPrefix. -/
def hasPrefixStr (s pre : String) : Bool := listIsPref pre.data s.data

/-- Go strings.HasSuffix. -/
def hasSuffixStr (s suf : String) : Bool := listIsPref suf.data.reverse s.data.reverse

/-- Go strings.TrimPrefix. -/
def trimPrefixStr (s pre : String) : String :=
  if hasPrefixStr s pre then ⟨s.data.drop pre.data.length⟩ else s

/-- Go strings.Split with a single-character separator. -/
def splitCharAux (c : Char) : List Char → List Char → List (List Char)
  | [], acc => [acc.reverse]
  | x :: rest, acc =>
    if x = c then acc.reverse :: splitCharAux c rest []
    else splitCharAux c rest (x :: acc)

def splitChar (s : String) (c : Char) : List String :=
  (splitCharAux c s.data []).map fun l => ⟨l⟩

/-- Go strings.Join. -/
def joinSep (sep : String) : List String → String
  | [] => ""
  | [x] => x
  | x :: y :: rest => x ++ sep ++ joinSep sep (y :: rest)

/-- Go unicode.IsSpace restricted to the ASCII whitespace bytes that
strings.TrimSpace strips ( the inputs in this development are ASCII ). -/
def isSpaceChar (c : Char) : Bool :=
  c = ' ' || c = '\t' || c = '\n' || c = '\x0b' || c = '\x0c' || c = '\r'

def dropWhileSpace (l : List Char) : List Char := l.dropWhile isSpaceChar

/-- Go strings.TrimSpace. -/
def trimSpace (s : String) : String :=
  ⟨(dropWhileSpace (dropWhileSpace s.data.reverse)).reverse⟩

/-- Trim characters of a cutset from the left ( strings.TrimLeft ). -/
def trimLeftSet (s : String) (cut : List Char) : String :=
  ⟨s.data.dropWhile (fun c => cut.contains c)⟩

/-- Trim characters of a cutset from the right ( strings.TrimRight ). -/
def trimRightSet (s : String) (cut : List Char) : String :=
  ⟨(s.data.reverse.dropWhile (fun c => cut.contains c)).reverse⟩

/-! ## Percent decoding ( net/url.PathUnescape ) -/

def hexDigitVal (c : Char) : Option Nat :=
  if '0' ≤ c ∧ c ≤ '9' then some (c.toNat - '0'.toNat)
  else if 'a' ≤ c ∧ c ≤ 'f' then some (c.toNat - 'a'.toNat + 10)
  else if 'A' ≤ c ∧ c ≤ 'F' then some (c.toNat - 'A'.toNat + 10)
  else none

def pathUnescapeAux : List Char → Option (List Char)
  | [] => some []
  | '%' :: a :: b :: rest =>
    match hexDigitVal a, hexDigitVal b with
    | some x, some y => (pathUnescapeAux rest).map (Char.ofNat (16 * x + y) :: ·)
    | _, _ => none
  | '%' :: _ :: [] => none
  | '%' :: [] => none
  | c :: rest =>
    if c = '%' then none
    else (pathUnescapeAux rest).map (c :: ·)

/-- Go url.PathUnescape: decodes %XX sequences, errors on malformed escapes. -/
def pathUnescape (s : String) : Option String :=
  (pathUnescapeAux s.data).map fun l => ⟨l⟩

/-! ## Raw URL-safe base64 ( encoding/base64.RawURLEncoding ) -/

def b64Val (c : Char) : Option Nat :=
  if 'A' ≤ c ∧ c ≤ 'Z' then some (c.toNat - 'A'.toNat)
  else if 'a' ≤ c ∧ c ≤ 'z' then some (c.toNat - 'a'.toNat + 26)
  else if '0' ≤ c ∧ c ≤ '9' then some (c.toNat - '0'.toNat + 52)
  else if c = '-' then some 62
  else if c = '_' then some 63
  else none

def b64Chr (n : Nat) : Char :=
  if n < 26 then Char.ofNat ('A'.toNat + n)
  else if n < 52 then Char.ofNat ('a'.toNat + (n - 26))
  else if n < 62 then Char.ofNat ('0'.toNat + (n - 52))
  else if n = 62 then '-'
  else '_'

/-- Decode unpadded URL-safe base64 text into bytes; `none` on an invalid
character or an impossible length ( length mod 4 = 1 ). -/
def b64DecodeAux : List Char → Option (List Nat)
  | [] => some []
  | [_] => none
  | [a, b] => do
    let va ← b64Val a
    let vb ← b64Val b
    pure [va * 4 + vb / 16]
  | [a, b, c] => do
    let va ← b64Val a
    let vb ← b64Val b
    let vc ← b64Val c
    pure [va * 4 + vb / 16, (vb % 16) * 16 + vc / 4]
  | a :: b :: c :: d :: rest => do
    let va ← b64Val a
    let vb ← b64Val b
    let vc ← b64Val c
    let vd ← b64Val d
    let tail ← b64DecodeAux rest
    pure ([va * 4 + vb / 16, (vb % 16) * 16 + vc / 4, (vc % 4) * 64 + vd] ++ tail)

def b64EncodeAux : List Nat → List Char
  | [] => []
  | [x] => [b64Chr (x / 4), b64Chr ((x % 4) * 16)]
  | [x, y] => [b64Chr (x / 4), b64Chr ((x % 4) * 16 + y / 16), b64Chr ((y % 16) * 4)]
  | x :: y :: z :: rest =>
    [b64Chr (x / 4), b64Chr ((x % 4) * 16 + y / 16),
     b64Chr ((y % 16) * 4 + z / 64), b64Chr (z % 64)] ++ b64EncodeAux rest

/-- Go base64.RawURLEncoding.EncodeToString. -/
def b64Encode (bs : List Nat) : String := ⟨b64EncodeAux bs⟩

/-! ## UTF-8 validity and decoding ( unicode/utf8 ) -/

def isCont (b : Nat) : Bool := 0x80 ≤ b && b ≤ 0xBF

/-- Go utf8.Valid: well-formed UTF-8, no overlong forms, no surrogates,
no code points above U+10FFFF. -/
def utf8Valid : List Nat → Bool
  | [] => true
  | b :: rest =>
    if b < 0x80 then utf8Valid rest
    else if 0xC2 ≤ b && b ≤ 0xDF then
      match rest with
      | c1 :: r => isCont c1 && utf8Valid r
      | [] => false
    else if b = 0xE0 then
      match rest with
      | c1 :: c2 :: r => (0xA0 ≤ c1 && c1 ≤ 0xBF) && isCont c2 && utf8Valid r
      | _ => false
    else if (0xE1 ≤ b && b ≤ 0xEC) || b = 0xEE || b = 0xEF then
      match rest with
      | c1 :: c2 :: r => isCont c1 && isCont c2 && utf8Valid r
      | _ => false
    else if b = 0xED then
      match rest with
      | c1 :: c2 :: r => (0x80 ≤ c1 && c1 ≤ 0x9F) && isCont c2 && utf8Valid r
      | _ => false
    else if b = 0xF0 then
      match rest with
      | c1 :: c2 :: c3 :: r => (0x90 ≤ c1 && c1 ≤ 0xBF) && isCont c2 && isCont c3 && utf8Valid r
      | _ => false
    else if 0xF1 ≤ b && b ≤ 0xF3 then
      match rest with
      | c1 :: c2 :: c3 :: r => isCont c1 && isCont c2 && isCont c3 && utf8Valid r
      | _ => false
    else if b = 0xF4 then
      match rest with
      | c1 :: c2 :: c3 :: r => (0x80 ≤ c1 && c1 ≤ 0x8F) && isCont c2 && isCont c3 && utf8Valid r
      | _ => false
    else false

/-- Decode UTF-8 bytes into characters; only used on byte lists that
passed `utf8Valid` ( Go string(b) ). -/
def utf8DecodeAux : List Nat → List Char
  | [] => []
  | b :: rest =>
    if b < 0x80 then Char.ofNat b :: utf8DecodeAux rest
    else if b ≤ 0xDF then
      match rest with
      | c1 :: r => Char.ofNat ((b - 0xC0) * 64 + (c1 - 0x80)) :: utf8DecodeAux r
      | [] => []
    else if b ≤ 0xEF then
      match rest with
      | c1 :: c2 :: r =>
        Char.ofNat ((b - 0xE0) * 4096 + (c1 - 0x80) * 64 + (c2 - 0x80)) :: utf8DecodeAux r
      | _ => []
    else
      match rest with
      | c1 :: c2 :: c3 :: r =>
        Char.ofNat ((b - 0xF0) * 262144 + (c1 - 0x80) * 4096 + (c2 - 0x80) * 64 + (c3 - 0x80))
          :: utf8DecodeAux r
      | _ => []

def utf8DecodeStr (bs : List Nat) : String := ⟨utf8DecodeAux bs⟩

/-- UTF-8 encoding of one character. -/
def utf8EncodeChar (c : Char) : List Nat :=
  let n := c.toNat
  if n < 0x80 then [n]
  else if n < 0x800 then [0xC0 + n / 64, 0x80 + n % 64]
  else if n < 0x10000 then [0xE0 + n / 4096, 0x80 + (n / 64) % 64, 0x80 + n % 64]
  else [0xF0 + n / 262144, 0x80 + (n / 4096) % 64, 0x80 + (n / 64) % 64, 0x80 + n % 64]

/-- UTF-8 bytes of a Lean string, as numbers ( Go []byte(s) ). -/
def strBytes (s : String) : List Nat := s.data.flatMap utf8EncodeChar

/-! ## Go strconv.Atoi -/

def digitsToNat : List Char → Option Nat
  | [] => none
  | l => l.foldl (fun acc c => do
      let a ← acc
      if '0' ≤ c ∧ c ≤ '9' then some (a * 10 + (c.toNat - '0'.toNat)) else none)
      (some 0)

/-- Go strconv.Atoi: optional sign, decimal digits, value within int64. -/
def goAtoi (s : String) : Option Int := do
  let (neg, digits) :=
    match s.data with
    | '-' :: rest => (true, rest)
    | '+' :: rest => (false, rest)
    | l => (false, l)
  let n ← digitsToNat digits
  let v : Int := if neg then -(n : Int) else (n : Int)
  if -(2 ^ 63) ≤ v ∧ v < 2 ^ 63 then some v else none

/-! ## Compiler ( internal/compiler ) -/

/-- Compiler options ( compiler.Options ); durations are int64 nanoseconds. -/
structure Options where
  defaultRange : String
  defaultLimit : Int
  maxRange : Int
  maxLimit : Int
deriving Repr, DecidableEq

/-- Compiled query ( compiler.Query ). -/
structure Query where
  dataset : String
  apl : String
  format : String
deriving Repr, DecidableEq

/-- The compiler delegates duration parsing to time.ParseDuration and
timestamp parsing to time.Parse(time.RFC3339Nano); both are Go standard
library calls external to the repository, so the embedding abstracts them
as parameters: `parseDuration` yields nanoseconds, `parseRFC3339` yields an
instant in nanoseconds, and both yield `none` exactly on unparseable input. -/
structure Externals where
  parseDuration : String → Option Int
  parseRFC3339 : String → Option Int

/-- Externals instance whose parsers accept nothing; used for concrete
evaluations that never reach a parser ( or reach it with bad input ). -/
def noParse : Externals := ⟨fun _ => none, fun _ => none⟩

def defaultFormat : String := "ndjson"

def rangeAgo (dur : String) : String :=
  "where _time between (ago(" ++ dur ++ ") .. now())"

/-- Go %q for the strings appearing in this development: quoted form with
backslash and double quote escaped ( plus common control escapes ). -/
def goQuoteChar (c : Char) : List Char :=
  if c = '"' then ['\\', '"']
  else if c = '\\' then ['\\', '\\']
  else if c = '\n' then ['\\', 'n']
  else if c = '\t' then ['\\', 't']
  else if c = '\r' then ['\\', 'r']
  else [c]

def goQuote (s : String) : String :=
  "\"" ++ (⟨s.data.flatMap goQuoteChar⟩ : String) ++ "\""

def datetimeArg (value : String) : String :=
  if hasPrefixStr value "\"" ∧ hasSuffixStr value "\"" then
    "datetime(" ++ value ++ ")"
  else
    "datetime(" ++ goQuote value ++ ")"

def rangeFromTo (from_ to_ : String) : String :=
  "where _time between (" ++ datetimeArg from_ ++ " .. " ++ datetimeArg to_ ++ ")"

def splitFieldDir (input : String) : Except String (String × String) :=
  match splitChar input ':' with
  | [field, dir] =>
    if field = "" ∨ dir = "" then .error "field and dir required"
    else if dir ≠ "asc" ∧ dir ≠ "desc" then .error "dir must be asc or desc"
    else .ok (field, dir)
  | _ => .error "expected field:dir"

def isFormat (format : String) : Bool :=
  format = "ndjson" || format = "csv" || format = "json"

/-- compiler.decodeExpr: percent-decoding when a % is present, otherwise an
attempted round-tripping raw URL-safe base64 decode, otherwise pass-through. -/
def decodeExpr (input : String) : Except String String :=
  if input = "" then .error "empty input"
  else
    match pathUnescape input with
    | none => .error "invalid URL escape"
    | some decoded =>
      if containsSub input "%" then .ok decoded
      else
        match b64DecodeAux input.data with
        | some bs =>
          if utf8Valid bs && b64Encode bs = input then .ok (utf8DecodeStr bs)
          else .ok decoded
        | none => .ok decoded

def escapeAPLChar (c : Char) : List Char :=
  if c = '\\' then ['\\', '\\']
  else if c = '"' then ['\\', '"']
  else [c]

def escapeAPLString (input : String) : String := ⟨input.data.flatMap escapeAPLChar⟩

/-- compiler.checkRangeAgo: with maxRange = 0 the whole check is skipped,
so the duration is not even parsed. -/
def checkRangeAgo (E : Externals) (dur : String) (maxRange : Int) : Except String Unit :=
  if maxRange = 0 then .ok ()
  else
    match E.parseDuration dur with
    | none => .error ("range/ago invalid duration: " ++ goQuote dur)
    | some parsed =>
      if parsed > maxRange then .error "range exceeds max" else .ok ()

/-- compiler.checkRangeFromTo: with maxRange = 0 the whole check is skipped. -/
def checkRangeFromTo (E : Externals) (from_ to_ : String) (maxRange : Int) :
    Except String Unit :=
  if maxRange = 0 then .ok ()
  else
    match E.parseRFC3339 from_ with
    | none => .error ("range/from invalid time: " ++ goQuote from_)
    | some start =>
      match E.parseRFC3339 to_ with
      | none => .error ("range/to invalid time: " ++ goQuote to_)
      | some end_ =>
        if end_ < start then .error "range invalid: end before start"
        else if end_ - start > maxRange then .error "range exceeds max"
        else .ok ()

def checkLimit (n maxLimit : Int) : Except String Unit :=
  if maxLimit > 0 ∧ n > maxLimit then .error "limit exceeds max" else .ok ()

/-- Mutable compile state ( compiler.compileState, minus the option fields
that are threaded separately ). -/
structure CState where
  steps : List String
  hasRange : Bool
  hasLimit : Bool
  format : String
deriving Repr, DecidableEq

def initCState : CState := ⟨[], false, false, defaultFormat⟩

def CState.append (st : CState) (step : String) : CState :=
  { st with steps := st.steps ++ [step] }

def CState.addRange (st : CState) (step : String) : CState :=
  { st with hasRange := true, steps := st.steps ++ [step] }

def CState.markLimit (st : CState) : CState := { st with hasLimit := true }

/-- One iteration of compiler.CompileSegments' segment-consumption loop:
given the segment at the cursor and the segments after it, either fail or
return the updated state together with the number of argument segments
consumed ( the Go cursor increment i += k, minus one for the keyword ). -/
def consumeStep (E : Externals) (maxRange maxLimit : Int) (seg : String)
    (rest : List String) (st : CState) : Except String (CState × Nat) :=
  if seg = "range" then
    match rest with
    | a1 :: a2 :: rest2 =>
      if a1 = "ago" then
        match checkRangeAgo E a2 maxRange with
        | .error e => .error e
        | .ok _ => .ok (st.addRange (rangeAgo a2), 2)
      else if a1 = "from" then
        (match rest2 with
        | a3 :: a4 :: rest4 =>
          if a3 = "to" then
            match checkRangeFromTo E a2 a4 maxRange with
            | .error e => .error e
            | .ok _ => .ok (st.addRange (rangeFromTo a2 a4), 4)
          else .error "range/from missing to"
        | _ => .error "range/from missing to")
      else .error ("range mode unsupported: " ++ goQuote a1)
    | _ => .error "range missing arguments"
  else if seg = "where" then
    match rest with
    | e :: rest1 =>
      match decodeExpr e with
      | .error msg => .error ("where decode: " ++ msg)
      | .ok expr => .ok (st.append ("where " ++ expr), 1)
    | [] => .error "where missing expression"
  else if seg = "search" then
    match rest with
    | e :: rest1 =>
      match decodeExpr e with
      | .error msg => .error ("search decode: " ++ msg)
      | .ok term => .ok (st.append ("search " ++ goQuote (escapeAPLString term)), 1)
    | [] => .error "search missing term"
  else if seg = "summarize" then
    match rest with
    | e :: rest1 =>
      match decodeExpr e with
      | .error msg => .error ("summarize decode: " ++ msg)
      | .ok agg =>
        match rest1 with
        | b :: rest2 =>
          if b = "by" then
            match rest2 with
            | f :: rest3 =>
              match decodeExpr f with
              | .error msg => .error ("summarize/by decode: " ++ msg)
              | .ok fields => .ok (st.append ("summarize " ++ agg ++ " by " ++ fields), 3)
            | [] => .error "summarize/by missing fields"
          else .ok (st.append ("summarize " ++ agg), 1)
        | [] => .ok (st.append ("summarize " ++ agg), 1)
    | [] => .error "summarize missing agg"
  else if seg = "project" then
    match rest with
    | e :: rest1 =>
      match decodeExpr e with
      | .error msg => .error ("project decode: " ++ msg)
      | .ok fields => .ok (st.append ("project " ++ fields), 1)
    | [] => .error "project missing fields"
  else if seg = "project-away" then
    match rest with
    | e :: rest1 =>
      match decodeExpr e with
      | .error msg => .error ("project-away decode: " ++ msg)
      | .ok fields => .ok (st.append ("project-away " ++ fields), 1)
    | [] => .error "project-away missing fields"
  else if seg = "order" then
    match rest with
    | e :: rest1 =>
      match splitFieldDir e with
      | .error msg => .error ("order invalid: " ++ msg)
      | .ok (field, dir) => .ok (st.append ("order by " ++ field ++ " " ++ dir), 1)
    | [] => .error "order missing field:dir"
  else if seg = "limit" then
    match rest with
    | v :: rest1 =>
      match goAtoi v with
      | none => .error ("limit invalid: " ++ goQuote v)
      | some n =>
        if n < 0 then .error ("limit invalid: " ++ goQuote v)
        else
          match checkLimit n maxLimit with
          | .error e => .error e
          | .ok _ => .ok ((st.append ("take " ++ toString n)).markLimit, 1)
    | [] => .error "limit missing value"
  else if seg = "top" then
    match rest with
    | n :: b :: f :: rest3 =>
      if b ≠ "by" then .error "top requires n/by/field:dir"
      else
        match goAtoi n with
        | none => .error ("top invalid: " ++ goQuote n)
        | some v =>
          if v < 0 then .error ("top invalid: " ++ goQuote n)
          else
            match checkLimit v maxLimit with
            | .error e => .error e
            | .ok _ =>
              match splitFieldDir f with
              | .error msg => .error ("top invalid: " ++ msg)
              | .ok (field, dir) =>
                .ok ((st.append ("top " ++ toString v ++ " by " ++ field ++ " " ++ dir)).markLimit, 3)
    | _ => .error "top requires n/by/field:dir"
  else if seg = "format" then
    match rest with
    | v :: rest1 =>
      if isFormat v then .ok ({ st with format := v }, 1)
      else .error ("format invalid: " ++ goQuote v)
    | [] => .error "format missing value"
  else
    if hasPrefixStr seg "result." then
      let ext := trimPrefixStr seg "result."
      if isFormat ext then .ok ({ st with format := ext }, 0)
      else .error ("result extension invalid: " ++ goQuote seg)
    else .error ("unknown segment: " ++ goQuote seg)

/-- The consumption loop driven by a fuel counter; one fuel unit is spent
per iteration and every iteration consumes at least one segment, so fuel
equal to the list length never runs out ( consumeFuel_fuel_irrelevant ). -/
def consumeFuel (E : Externals) (maxRange maxLimit : Int) :
    Nat → List String → CState → Except String CState
  | _, [], st => .ok st
  | 0, _ :: _, _ => .error "out of fuel"
  | fuel + 1, seg :: rest, st =>
    match consumeStep E maxRange maxLimit seg rest st with
    | .error e => .error e
    | .ok (st2, k) => consumeFuel E maxRange maxLimit fuel (rest.drop k) st2

/-- The segment-consumption loop of compiler.CompileSegments. -/
def consume (E : Externals) (maxRange maxLimit : Int) (l : List String)
    (st : CState) : Except String CState :=
  consumeFuel E maxRange maxLimit l.length l st

/-- Effective default range ( compiler.CompileSegments defaulting ). -/
def effRange (opts : Options) : String :=
  if opts.defaultRange ≠ "" then opts.defaultRange else "1h"

/-- Effective default limit ( compiler.CompileSegments defaulting ). -/
def effLimit (opts : Options) : Int :=
  if opts.defaultLimit > 0 then opts.defaultLimit else 10000

/-- Final step list: prepend default range when no range clause was consumed,
append the default take when no limit clause was consumed. -/
def assembleSteps (opts : Options) (st : CState) : List String :=
  let steps := if ¬ st.hasRange then rangeAgo (effRange opts) :: st.steps else st.steps
  if ¬ st.hasLimit ∧ effLimit opts > 0 then
    steps ++ ["take " ++ toString (effLimit opts)]
  else steps

/-- Render the APL text from the dataset and the final step list. -/
def renderAPL (dataset : String) (steps : List String) : String :=
  let head := "['" ++ dataset ++ "']"
  if steps ≠ [] then head ++ "\n| " ++ joinSep "\n| " steps else head

/-- compiler.CompileSegments. -/
def CompileSegments (E : Externals) (dataset : String) (segments : List String)
    (opts : Options) : Except String Query :=
  if dataset = "" then .error "dataset is required"
  else
    (consume E opts.maxRange opts.maxLimit segments initCState).map fun st =>
      ⟨dataset, renderAPL dataset (assembleSteps opts st), st.format⟩

/-! ## Byte cache ( internal/cache, configured without a disk mirror ) -/

/-- Size caps of cache.Cache ( Go ints; 0 or negative disables a cap ). -/
structure CacheCfg where
  maxEntries : Int
  maxBytes : Int
deriving Repr, DecidableEq

/-- Go map lookup over the embedding of `items` as an association list with
unique keys. -/
def lookupItem : List (String × List Nat) → String → Option (List Nat)
  | [], _ => none
  | e :: rest, k => if e.1 = k then some e.2 else lookupItem rest k

/-- Go map delete. -/
def eraseItem : List (String × List Nat) → String → List (String × List Nat)
  | [], _ => []
  | e :: rest, k => if e.1 = k then eraseItem rest k else e :: eraseItem rest k

/-- Go map assignment. A Go map is unordered, so placing the assigned entry
at the end of the association list is a faithful model of m[k] = v. -/
def assocSet (items : List (String × List Nat)) (k : String) (v : List Nat) :
    List (String × List Nat) :=
  eraseItem items k ++ [(k, v)]

/-- cache.removeKeyLocked: remove the first occurrence of a key from the
insertion-order list. -/
def removeKey : List String → String → List String
  | [], _ => []
  | x :: rest, k => if x = k then rest else x :: removeKey rest k

/-- Cache.mu-protected state: the key-to-entry map, the insertion-order key
list and the running byte total ( entry expiry is not modelled: Set never
reads it, and the claims quantify over Set sequences only ). -/
structure CacheSt where
  items : List (String × List Nat)
  order : List String
  size : Nat
deriving Repr, DecidableEq

def cacheNew : CacheSt := ⟨[], [], 0⟩

/-- cache.shouldEvictLocked. -/
def shouldEvict (cfg : CacheCfg) (count size : Nat) : Bool :=
  (decide (cfg.maxEntries > 0) && decide ((count : Int) > cfg.maxEntries)) ||
  (decide (cfg.maxBytes > 0) && decide ((size : Int) > cfg.maxBytes))

/-- cache.evictLocked: pop keys from the head of the order list while a cap
is exceeded. -/
def evictLoop (cfg : CacheCfg) :
    List String → List (String × List Nat) → Nat →
    List String × List (String × List Nat) × Nat
  | order, items, size =>
    if shouldEvict cfg items.length size then
      match order with
      | [] => ([], items, size)
      | k :: rest =>
        match lookupItem items k with
        | some v => evictLoop cfg rest (eraseItem items k) (size - v.length)
        | none => evictLoop cfg rest items size
    else (order, items, size)

/-- The order list right after the insertion step of Set: an existing key is
unlinked and the key is appended at the tail. -/
def setOrd (c : CacheSt) (k : String) : List String :=
  (match lookupItem c.items k with
   | some _ => removeKey c.order k
   | none => c.order) ++ [k]

/-- The byte total right after the insertion step of Set. -/
def setSize (c : CacheSt) (k : String) (v : List Nat) : Nat :=
  (match lookupItem c.items k with
   | some old => c.size - old.length
   | none => c.size) + v.length

/-- cache.Cache.Set without a disk mirror: subtract and unlink an existing
entry, insert at the tail, bump the byte total, then evict from the head. -/
def cacheSet (cfg : CacheCfg) (c : CacheSt) (k : String) (v : List Nat) : CacheSt :=
  let r := evictLoop cfg (setOrd c k) (assocSet c.items k v) (setSize c k v)
  ⟨r.2.1, r.1, r.2.2⟩

/-- cache.Cache.Get restricted to the in-memory map ( no disk mirror; the
TTL clock is not modelled ). -/
def cacheGet (c : CacheSt) (k : String) : Option (List Nat) := lookupItem c.items k

/-- A Set(key, value) call sequence applied to a fresh cache. -/
def cacheRun (cfg : CacheCfg) (ops : List (String × List Nat)) : CacheSt :=
  ops.foldl (fun c kv => cacheSet cfg c kv.1 kv.2) cacheNew

/-! ## Upstream result shape and the encoders ( internal/query ) -/

/-- A JSON-encodable cell value from the upstream tabular result. -/
inductive JVal where
  | jStr (s : String)
  | jNum (n : Int)
  | jBool (b : Bool)
  | jNull
deriving Repr, DecidableEq

/-- One table of the upstream result: field names plus the row sequence
that table.Rows() yields. -/
structure QTable where
  fields : List String
  rows : List (List JVal)
deriving Repr, DecidableEq

/-- The upstream query result ( a list of tables ). -/
structure QResult where
  tables : List QTable
deriving Repr, DecidableEq

/-- Byte-order comparison of strings ( the order Go json.Marshal sorts map
keys in ). -/
def charsLt : List Char → List Char → Bool
  | [], [] => false
  | [], _ :: _ => true
  | _ :: _, [] => false
  | a :: as_, b :: bs =>
    if a.toNat < b.toNat then true
    else if b.toNat < a.toNat then false
    else charsLt as_ bs

def strLt (a b : String) : Bool := charsLt a.data b.data

/-- Go map assignment for row objects: later writes to the same key win. -/
def objUpdate (m : List (String × JVal)) (k : String) (v : JVal) :
    List (String × JVal) :=
  if (m.find? (fun e => e.1 = k)).isSome then
    m.map (fun e => if e.1 = k then (k, v) else e)
  else m ++ [(k, v)]

/-- Row object: entry[field.Name] = row[i] for each positional index with a
value ( missing values are omitted, excess values ignored ). -/
def rowObj (fields : List String) (row : List JVal) : List (String × JVal) :=
  (fields.zip row).foldl (fun m kv => objUpdate m kv.1 kv.2) []

def insertByKey (e : String × JVal) : List (String × JVal) → List (String × JVal)
  | [] => [e]
  | x :: rest => if strLt e.1 x.1 then e :: x :: rest else x :: insertByKey e rest

/-- Keys sorted bytewise, as Go json.Marshal renders maps. -/
def sortByKey (m : List (String × JVal)) : List (String × JVal) :=
  m.foldr insertByKey []

def jsonEscapeChar (c : Char) : List Char :=
  if c = '"' then ['\\', '"']
  else if c = '\\' then ['\\', '\\']
  else if c = '\n' then ['\\', 'n']
  else if c = '\t' then ['\\', 't']
  else if c = '\r' then ['\\', 'r']
  else [c]

def jsonStr (s : String) : String :=
  "\"" ++ (⟨s.data.flatMap jsonEscapeChar⟩ : String) ++ "\""

def jsonVal : JVal → String
  | .jStr s => jsonStr s
  | .jNum n => toString n
  | .jBool true => "true"
  | .jBool false => "false"
  | .jNull => "null"

/-- Compact JSON object ( Go json.Encoder without indentation ). -/
def jsonObjCompact (m : List (String × JVal)) : String :=
  "\x7b" ++ joinSep "," ((sortByKey m).map fun e => jsonStr e.1 ++ ":" ++ jsonVal e.2) ++ "\x7d"

/-- Two-space-indented JSON object at nesting depth one inside the array
( Go json.MarshalIndent with indent "  " ). -/
def jsonObjIndented (m : List (String × JVal)) : String :=
  match sortByKey m with
  | [] => "{}"
  | l =>
    "\x7b\n" ++ joinSep ",\n" (l.map fun e => "    " ++ jsonStr e.1 ++ ": " ++ jsonVal e.2) ++
    "\n  \x7d"

/-- query.encodeNDJSON: one compact JSON object per row, newline-terminated. -/
def encodeNDJSON (table : QTable) : String :=
  String.join (table.rows.map fun row => jsonObjCompact (rowObj table.fields row) ++ "\n")

/-- query.encodeJSON: an indented JSON array of the row objects plus a
trailing newline. -/
def encodeJSON (table : QTable) : String :=
  (match table.rows with
   | [] => "[]"
   | rows =>
     "[\n" ++ joinSep ",\n" (rows.map fun row => "  " ++ jsonObjIndented (rowObj table.fields row)) ++
     "\n]") ++ "\n"

/-- query.stringify: strings verbatim, anything else via the default
formatter. -/
def stringifyJVal : JVal → String
  | .jStr s => s
  | .jNum n => toString n
  | .jBool true => "true"
  | .jBool false => "false"
  | .jNull => "<nil>"

def csvNeedsQuotes (s : String) : Bool :=
  if s = "" then false
  else
    containsSub s "," || containsSub s "\"" || containsSub s "\r" || containsSub s "\n" ||
    (match s.data with
     | c :: _ => c = ' ' || c = '\t'
     | [] => false)

def csvQuoteChar (c : Char) : List Char := if c = '"' then ['"', '"'] else [c]

def csvField (s : String) : String :=
  if csvNeedsQuotes s then "\"" ++ (⟨s.data.flatMap csvQuoteChar⟩ : String) ++ "\""
  else s

def csvLine (record : List String) : String :=
  joinSep "," (record.map csvField) ++ "\n"

/-- Record of a row: one cell per field, the empty string where the row has
no value at that index. -/
def csvRecord (fields : List String) (row : List JVal) : List String :=
  (List.range fields.length).map fun i =>
    match row.get? i with
    | some v => stringifyJVal v
    | none => ""

/-- query.encodeCSV: field-name header row, then one line per data row. -/
def encodeCSV (table : QTable) : String :=
  csvLine table.fields ++
  String.join (table.rows.map fun row => csvLine (csvRecord table.fields row))

/-- query.encodeResult: empty results get fixed bytes for every format;
otherwise only the FIRST table is encoded. -/
def encodeResult (result : QResult) (format : String) : Except String String :=
  match result.tables with
  | [] =>
    if format = "json" then .ok "[]\n"
    else if format = "csv" then .ok ""
    else .ok ""
  | table :: _ =>
    if format = "ndjson" then .ok (encodeNDJSON table)
    else if format = "json" then .ok (encodeJSON table)
    else if format = "csv" then .ok (encodeCSV table)
    else .error ("unsupported format: " ++ format)

/-- query.encodeResultToWriter: the streaming twin of encodeResult, returning
the bytes it would write; again only the FIRST table is encoded. -/
def encodeResultToWriter (result : QResult) (format : String) : Except String String :=
  match result.tables with
  | [] =>
    if format = "json" then .ok "[]\n"
    else .ok ""
  | table :: _ =>
    if format = "ndjson" then .ok (encodeNDJSON table)
    else if format = "json" then .ok (encodeJSON table)
    else if format = "csv" then .ok (encodeCSV table)
    else .error ("unsupported format: " ++ format)

/-! ## Executor ( internal/query ) -/

/-- query.ExecOptions. -/
structure ExecOptions where
  useCache : Bool
  ensureTimeRange : Bool
  ensureLimit : Bool
deriving Repr, DecidableEq

/-- The executor configuration fields the claims depend on. -/
structure ExecCfg where
  defaultRange : String
  defaultLimit : Int
  maxCacheBytes : Int
  maxInMemoryBytes : Int
deriving Repr, DecidableEq

/-- Break a character list at the first occurrence of a character
( strings.SplitN with n = 2 ). -/
def breakAtChar (c : Char) : List Char → Option (List Char × List Char)
  | [] => none
  | x :: rest =>
    if x = c then some ([], rest)
    else (breakAtChar c rest).map fun p => (x :: p.1, p.2)

/-- query.insertPipeline: place a clause right after the dataset reference. -/
def insertPipeline (apl clause : String) : String :=
  match breakAtChar '|' apl.data with
  | none => apl ++ "\n| " ++ clause
  | some (pre, post) =>
    let head := trimRightSet ⟨pre⟩ [' ', '\n']
    let rest := trimLeftSet ⟨post⟩ [' ', '\n']
    head ++ "\n| " ++ clause ++ "\n| " ++ rest

/-- query.ensureTimeRange. -/
def ensureTimeRange (apl defaultRange : String) : String :=
  if containsSub apl "_time between" then apl
  else
    let rangeExpr := "where _time between (ago(" ++ defaultRange ++ ") .. now())"
    if containsSub apl "|" then insertPipeline apl rangeExpr
    else apl ++ "\n| " ++ rangeExpr

def toLowerStr (s : String) : String := ⟨s.data.map Char.toLower⟩

/-- query.ensureLimit. -/
def ensureLimit (apl : String) (defaultLimit : Int) : String :=
  if defaultLimit ≤ 0 then apl
  else
    let lower := toLowerStr apl
    if containsSub lower " take " || containsSub lower "| take" || containsSub lower " top " then
      apl
    else apl ++ "\n| take " ++ toString defaultLimit

/-- query.cacheKey: the fingerprint `<apl>|<format>`. -/
def cacheKey (apl format : String) : String := apl ++ "|" ++ format

/-- query.Executor.shouldCache. -/
def shouldCache (maxCacheBytes : Int) (size : Nat) : Bool :=
  if maxCacheBytes > 0 ∧ (size : Int) > maxCacheBytes then false else true

/-- The default-injection prelude shared by ExecuteAPL and ExecuteAPLResult. -/
def effAPL (cfg : ExecCfg) (opts : ExecOptions) (apl : String) : String :=
  let a := if opts.ensureTimeRange then ensureTimeRange apl cfg.defaultRange else apl
  if opts.ensureLimit then ensureLimit a cfg.defaultLimit else a

/-- query.ResultData: either in-memory bytes or a spilled temp file of the
given byte size. -/
inductive Payload where
  | bytes (data : List Nat)
  | file (size : Nat)
deriving Repr, DecidableEq

/-- query.Executor.ExecuteAPL for one sequential call: the upstream client is
a parameter, the single-flight section degenerates to a direct call, and the
possibly updated cache is returned alongside the data. The cache insert on
the compute path has NO size check. -/
def executeAPL (client : String → Except String QResult) (cfg : ExecCfg)
    (ccfg : CacheCfg) (cache : Option CacheSt) (apl format : String)
    (opts : ExecOptions) : Except String (List Nat × Option CacheSt) :=
  let apl := effAPL cfg opts apl
  let key := cacheKey apl format
  let hit : Option (List Nat) :=
    match cache with
    | some c => if opts.useCache then cacheGet c key else none
    | none => none
  match hit with
  | some data => .ok (data, cache)
  | none =>
    match client apl with
    | .error e => .error e
    | .ok result =>
      match encodeResult result format with
      | .error e => .error e
      | .ok text =>
        let data := strBytes text
        let cache' :=
          match cache with
          | some c => if opts.useCache then some (cacheSet ccfg c key data) else cache
          | none => none
        .ok (data, cache')

/-- query.Executor.ExecuteAPLResult for one sequential call. The spill writer
ends in file mode exactly when maxInMemoryBytes > 0 and the encoded byte
count exceeds it; a spilled result is never inserted into the cache, and an
in-memory result is inserted only when `shouldCache` allows its size. -/
def executeAPLResult (client : String → Except String QResult) (cfg : ExecCfg)
    (ccfg : CacheCfg) (cache : Option CacheSt) (apl format : String)
    (opts : ExecOptions) : Except String (Payload × Option CacheSt) :=
  let apl := effAPL cfg opts apl
  let key := cacheKey apl format
  let hit : Option (List Nat) :=
    match cache with
    | some c => if opts.useCache then cacheGet c key else none
    | none => none
  match hit with
  | some data => .ok (.bytes data, cache)
  | none =>
    match client apl with
    | .error e => .error e
    | .ok result =>
      match encodeResultToWriter result format with
      | .error e => .error e
      | .ok text =>
        let data := strBytes text
        if cfg.maxInMemoryBytes > 0 ∧ (data.length : Int) > cfg.maxInMemoryBytes then
          .ok (.file data.length, cache)
        else
          let cache' :=
            match cache with
            | some c =>
              if opts.useCache ∧ shouldCache cfg.maxCacheBytes data.length then
                some (cacheSet ccfg c key data)
              else cache
            | none => none
          .ok (.bytes data, cache')

/-- query.ValidateAPL. -/
def ValidateAPL (apl : String) : Except String Unit :=
  if trimSpace apl = "" then .error "apl is empty" else .ok ()

/-! ## Query store ( internal/store ) -/

def isSlotChar (c : Char) : Bool :=
  ('a' ≤ c && c ≤ 'z') || ('A' ≤ c && c ≤ 'Z') || ('0' ≤ c && c ≤ '9') ||
  c = '-' || c = '_' || c = '.'

/-- store.isValidName: nonempty, at most 64 characters, no path separator,
no "..", and only [A-Za-z0-9._-]. -/
def storeIsValidName (name : String) : Bool :=
  if name = "" then false
  else if 64 < name.data.length then false
  else if containsSub name "/" then false
  else if containsSub name ".." then false
  else name.data.all isSlotChar

def assocSetStr (m : List (String × String)) (k v : String) :
    List (String × String) :=
  if (m.find? (fun e => e.1 = k)).isSome then
    m.map (fun e => if e.1 = k then (k, v) else e)
  else m ++ [(k, v)]

/-- QueryStore state: slot name to stored text ( one .apl file per slot ). -/
def StoreSt : Type := List (String × String)

/-- store.QueryStore.Get: empty bytes for an invalid or absent slot. -/
def storeGet (store : StoreSt) (name : String) : String :=
  if storeIsValidName name then
    match store.find? (fun e => e.1 = name) with
    | some e => e.2
    | none => ""
  else ""

/-- store.QueryStore.Set: a silent no-op on an invalid name. -/
def storeSet (store : StoreSt) (name data : String) : StoreSt :=
  if storeIsValidName name then assocSetStr store name data else store

/-- store.QueryStore.Truncate. -/
def storeTruncate (store : StoreSt) (name : String) : StoreSt :=
  if storeIsValidName name then assocSetStr store name "" else store

/-! ## Raw-query VFS nodes ( internal/vfs ) -/

/-- vfs.isValidQueryName: only emptiness, path separators and ".." are
rejected ( os.PathSeparator is '/' on the target platform ); the character
class and the length bound live in the query store, not here. -/
def isValidQueryName (name : String) : Bool :=
  if name = "" then false
  else if containsSub name "/" then false
  else if containsSub name ".." then false
  else true

/-- vfs.QueriesDir.Lookup: an invalid name surfaces as NotFound ( none ),
any other name yields the QueryEntryDir node for that slot. -/
def queriesDirLookup (name : String) : Option String :=
  if isValidQueryName name then some name else none

/-- Specification-side definition, following the spec's words only: slot
names must match the regex [A-Za-z0-9._-]{1,64}. -/
def specSlotNamePattern (name : String) : Bool :=
  decide (1 ≤ name.data.length) && decide (name.data.length ≤ 64) &&
  name.data.all isSlotChar

/-- An executor request as issued by a VFS node: the APL text, the wire
format and the options. -/
structure ExecRequest where
  apl : String
  format : String
  opts : ExecOptions
deriving Repr, DecidableEq

/-- The ExecOptions of vfs.QueryResultFile.execute: raw APL queries run
as-is. -/
def vfsRawExecOpts : ExecOptions := ⟨true, false, false⟩

/-- vfs.QueryResultFile.execute: read the slot, validate non-emptiness, and
issue the stored text verbatim with the raw-APL options. -/
def queryResultFileExecute (store : StoreSt) (name format : String) :
    Except String ExecRequest :=
  let apl := storeGet store name
  match ValidateAPL apl with
  | .error e => .error e
  | .ok _ => .ok ⟨apl, format, vfsRawExecOpts⟩

/-- The ExecOptions passed by the legacy FUSE fs package's
QueryResultFile.Open ( kept for reference; that package is not linked into
the NFS server binary ). -/
def fusePkgResultExecOpts : ExecOptions := ⟨true, true, true⟩

/-! ## NFS adapter and the writable APL handle ( internal/nfsfs ) -/

/-- vfs.aplFile: the billy.File handle returned by APLFile.Create. -/
structure AplFile where
  name : String
  buf : String
  written : Bool
deriving Repr, DecidableEq

/-- vfs.newAPLFile. -/
def newAPLFile (name : String) : AplFile := ⟨name, "", false⟩

/-- aplFile.Write: append to the buffer and mark the handle written. -/
def AplFile.write (f : AplFile) (p : String) : AplFile :=
  { f with written := true, buf := f.buf ++ p }

/-- aplFile.Close: persist the buffer to the store only when a Write
happened on this handle. -/
def AplFile.close (store : StoreSt) (f : AplFile) : StoreSt :=
  if f.written then storeSet store f.name f.buf else store

/-- aplFile.Truncate: only size zero clears the slot and the buffer. -/
def AplFile.truncate (store : StoreSt) (f : AplFile) (size : Int) :
    StoreSt × AplFile :=
  if size = 0 then (storeTruncate store f.name, { f with buf := "" }) else (store, f)

/-- Go os open-flag bits on the target platform. -/
def O_WRONLY : Nat := 1
def O_RDWR : Nat := 2
def O_CREATE : Nat := 64
def O_TRUNC : Nat := 512
def O_APPEND : Nat := 1024

/-- nfsfs.FS.OpenFile's write test: any of O_WRONLY, O_RDWR, O_APPEND,
O_CREATE, O_TRUNC. -/
def isWriteFlag (flag : Nat) : Bool :=
  flag &&& (O_WRONLY ||| O_RDWR ||| O_APPEND ||| O_CREATE ||| O_TRUNC) ≠ 0

/-- The two handle shapes OpenFile can produce for a /_queries/<slot>/apl
node. -/
inductive OpenedApl where
  | writeHandle (f : AplFile)
  | readHandle (data : String)
deriving Repr, DecidableEq

/-- nfsfs.FS.OpenFile on /_queries/<slot>/apl: a write-flagged open calls
APLFile.Create ( a fresh unwritten handle; the store is untouched, O_TRUNC
included ), a read open snapshots the current slot bytes. -/
def fsOpenFileApl (store : StoreSt) (name : String) (flag : Nat) : OpenedApl :=
  if isWriteFlag flag then .writeHandle (newAPLFile name)
  else .readHandle (storeGet store name)

end AxiomFS

deriving instance DecidableEq for Except

namespace AxiomFS

/-! ## Claim C1: default range and default row cap -/

/-- Claim C1: for every accepted (dataset, segments, options) triple, when no
range clause was consumed the default-range clause is the first pipeline
step, and when no limit/top clause was consumed and the effective row cap is
positive, `take <cap>` is the last pipeline step; concretely, compiling
dataset "logs" with segments [where, status>=500, result.csv] under
{defaultRange 1h, defaultRowCap 10000} yields format csv and exactly the
four expected lines. -/
theorem compile_default_range_and_cap :
    (∀ (E : Externals) (ds : String) (segs : List String) (opts : Options) (st : CState),
      ds ≠ "" →
      consume E opts.maxRange opts.maxLimit segs initCState = .ok st →
      CompileSegments E ds segs opts =
        .ok ⟨ds, renderAPL ds (assembleSteps opts st), st.format⟩
      ∧ (st.hasRange = false →
          (assembleSteps opts st).head? = some (rangeAgo (effRange opts)))
      ∧ (st.hasLimit = false → 0 < effLimit opts →
          (assembleSteps opts st).getLast? =
            some ("take " ++ toString (effLimit opts))))
    ∧ CompileSegments noParse "logs" ["where", "status>=500", "result.csv"]
        ⟨"1h", 10000, 0, 0⟩ =
      .ok ⟨"logs",
        "['logs']\n| where _time between (ago(1h) .. now())\n| where status>=500\n| take 10000",
        "csv"⟩ := by
  constructor
  · intro E ds segs opts st hds hc
    refine ⟨?_, ?_, ?_⟩
    · simp [CompileSegments, hds, hc, Except.map]
    · intro hr
      unfold assembleSteps
      rw [hr]
      simp only [Bool.not_false]
      split
      · simp
      · simp
    · intro hl hpos
      unfold assembleSteps
      rw [hl]
      simp only [Bool.not_false]
      rw [if_pos ⟨by simp, hpos⟩]
      exact List.getLast?_concat _
  · decide

/-- Witness for C1 at segments [limit, 5]: the consumption succeeds with no
range clause, and the assembled steps start with the default-range clause. -/
theorem compile_default_range_and_cap_witness :
    (assembleSteps ⟨"1h", 10000, 0, 0⟩ ⟨["take 5"], false, true, "ndjson"⟩).head? =
      some (rangeAgo "1h") :=
  ((compile_default_range_and_cap.1 noParse "logs" ["limit", "5"] ⟨"1h", 10000, 0, 0⟩
      ⟨["take 5"], false, true, "ndjson"⟩ (by decide) (by decide)).2.1 rfl)

end AxiomFS

namespace AxiomFS

/-! ## Unfolding infrastructure for the consumption loop -/

theorem consumeFuel_nil (E : Externals) (mr ml : Int) (fuel : Nat) (st : CState) :
    consumeFuel E mr ml fuel [] st = .ok st := by
  cases fuel <;> rfl

theorem consumeFuel_fuel_irrelevant (E : Externals) (mr ml : Int) :
    ∀ (f1 f2 : Nat) (l : List String) (st : CState),
      l.length ≤ f1 → l.length ≤ f2 →
      consumeFuel E mr ml f1 l st = consumeFuel E mr ml f2 l st := by
  intro f1
  induction f1 with
  | zero =>
    intro f2 l st h1 _
    rw [List.length_eq_zero.mp (Nat.le_zero.mp h1)]
    rw [consumeFuel_nil, consumeFuel_nil]
  | succ f ih =>
    intro f2 l st h1 h2
    match l with
    | [] => rw [consumeFuel_nil, consumeFuel_nil]
    | seg :: rest =>
      match f2, h2 with
      | g + 1, h2 =>
        show (match consumeStep E mr ml seg rest st with
          | Except.error e => Except.error e
          | Except.ok (st2, k) => consumeFuel E mr ml f (rest.drop k) st2) =
          (match consumeStep E mr ml seg rest st with
          | Except.error e => Except.error e
          | Except.ok (st2, k) => consumeFuel E mr ml g (rest.drop k) st2)
        cases hs : consumeStep E mr ml seg rest st with
        | error e => rfl
        | ok p =>
          obtain ⟨st2, k⟩ := p
          have hlen : (rest.drop k).length ≤ rest.length := by
            simp [List.length_drop]
          simp only []
          simp only [List.length_cons] at h1 h2
          exact ih g (rest.drop k) st2 (by omega) (by omega)

/-- One-step unfolding of the consumption loop on a non-empty segment list. -/
theorem consume_cons (E : Externals) (mr ml : Int) (seg : String)
    (rest : List String) (st : CState) :
    consume E mr ml (seg :: rest) st =
      match consumeStep E mr ml seg rest st with
      | Except.error e => Except.error e
      | Except.ok (st2, k) => consume E mr ml (rest.drop k) st2 := by
  show consumeFuel E mr ml ((seg :: rest).length) (seg :: rest) st = _
  show (match consumeStep E mr ml seg rest st with
    | Except.error e => Except.error e
    | Except.ok (st2, k) => consumeFuel E mr ml rest.length (rest.drop k) st2) = _
  cases hs : consumeStep E mr ml seg rest st with
  | error e => rfl
  | ok p =>
    obtain ⟨st2, k⟩ := p
    have hlen : (rest.drop k).length ≤ rest.length := by
      simp [List.length_drop]
    simp only []
    exact consumeFuel_fuel_irrelevant E mr ml rest.length (rest.drop k).length
      (rest.drop k) st2 hlen le_rfl

/-! ## Claim C9: encoders use the first table only -/

/-- Claim C9: for upstream results with two or more tables, every format's
encoder ( both the in-memory and the streaming variant ) produces its output
from the first table alone, so the fields and rows of all later tables are
silently omitted: prepending any list of further tables after the first
leaves the encoded bytes unchanged. -/
theorem encoders_use_first_table_only :
    ∀ (t : QTable) (rest : List QTable) (format : String),
      encodeResult ⟨t :: rest⟩ format = encodeResult ⟨[t]⟩ format
      ∧ encodeResultToWriter ⟨t :: rest⟩ format = encodeResultToWriter ⟨[t]⟩ format :=
  fun _ _ _ => ⟨rfl, rfl⟩

/-! ## Claim C5: raw-APL slot execution options -/

/-- Claim C5: for every slot whose stored APL text is non-empty, the
result.<fmt> node of the NFS VFS issues exactly the stored text with
ExecOptions useCache = true, ensureTimeRange = false, ensureLimit = false,
and under those options the executor's default-injection prelude leaves the
text untouched, for every executor configuration. -/
theorem raw_slot_runs_verbatim :
    ∀ (store : StoreSt) (name format : String),
      trimSpace (storeGet store name) ≠ "" →
      queryResultFileExecute store name format =
        .ok ⟨storeGet store name, format, ⟨true, false, false⟩⟩
      ∧ ∀ cfg : ExecCfg, effAPL cfg vfsRawExecOpts (storeGet store name) = storeGet store name := by
  intro store name format hne
  constructor
  · simp [queryResultFileExecute, ValidateAPL, hne, vfsRawExecOpts]
  · intro cfg
    simp [effAPL, vfsRawExecOpts]

/-- Witness for C5: a store holding the slot demo with text ['logs'] issues
exactly that text with the raw-APL options. -/
theorem raw_slot_runs_verbatim_witness :
    queryResultFileExecute [("demo", "['logs']")] "demo" "ndjson" =
      .ok ⟨storeGet [("demo", "['logs']")] "demo", "ndjson", ⟨true, false, false⟩⟩ :=
  (raw_slot_runs_verbatim [("demo", "['logs']")] "demo" "ndjson" (by decide)).1

/-! ## Claim C7: slot-name validation at Lookup -/

/-- Counterexample to C7: the name "a b" does not match the slot-name
pattern [A-Za-z0-9._-]{1,64}, yet QueriesDir.Lookup accepts it and produces
the QueryEntryDir node instead of NotFound. -/
theorem queries_lookup_regex_cex :
    specSlotNamePattern "a b" = false ∧ queriesDirLookup "a b" = some "a b" := by
  decide

/-- Claim C7 amended: QueriesDir.Lookup returns NotFound exactly for the
empty name, names containing a path separator, and names containing "..";
every other name yields a QueryEntryDir node, even when it violates the
[A-Za-z0-9._-]{1,64} pattern ( the query store's own name check separately
rejects such slots on read and write ). -/
theorem queries_lookup_amended :
    ∀ name : String,
      queriesDirLookup name = none ↔
        (name = "" ∨ containsSub name "/" = true ∨ containsSub name ".." = true) := by
  intro name
  unfold queriesDirLookup isValidQueryName
  by_cases h1 : name = "" <;> by_cases h2 : containsSub name "/" = true <;>
    by_cases h3 : containsSub name ".." = true <;>
    simp [h1, h2, h3]

/-! ## Claim C10: the writable apl handle persists only after a Write -/

theorem foldl_write_buf (ws : List String) :
    ∀ f : AplFile, (List.foldl AplFile.write f ws).buf = ws.foldl (fun acc w => acc ++ w) f.buf := by
  induction ws with
  | nil => intro f; rfl
  | cons w ws ih => intro f; exact ih (f.write w)

theorem foldl_write_written (ws : List String) :
    ∀ f : AplFile, (List.foldl AplFile.write f ws).written = (f.written || decide (ws ≠ [])) := by
  induction ws with
  | nil => intro f; simp
  | cons w ws ih =>
    intro f
    rw [List.foldl_cons, ih]
    simp [AplFile.write]

theorem foldl_write_name (ws : List String) :
    ∀ f : AplFile, (List.foldl AplFile.write f ws).name = f.name := by
  induction ws with
  | nil => intro f; rfl
  | cons w ws ih => intro f; exact ih (f.write w)

/-- Claim C10: opening the writable apl slot file with any write-mode flags
( O_CREATE and O_TRUNC included ) yields a fresh unwritten handle and leaves
the store untouched; closing after a sequence of Write calls persists the
accumulated buffer iff the sequence is non-empty, so a handle closed with no
Write leaves the stored slot bytes unchanged. -/
theorem apl_close_persists_only_after_write :
    ∀ (store : StoreSt) (name : String) (flag : Nat) (ws : List String),
      isWriteFlag flag = true →
      fsOpenFileApl store name flag = .writeHandle (newAPLFile name)
      ∧ (List.foldl AplFile.write (newAPLFile name) ws).written = decide (ws ≠ [])
      ∧ (ws = [] → AplFile.close store (List.foldl AplFile.write (newAPLFile name) ws) = store)
      ∧ (ws ≠ [] → AplFile.close store (List.foldl AplFile.write (newAPLFile name) ws) =
          storeSet store name (ws.foldl (fun acc w => acc ++ w) "")) := by
  intro store name flag ws hflag
  refine ⟨?_, ?_, ?_, ?_⟩
  · simp [fsOpenFileApl, hflag]
  · rw [foldl_write_written]
    rfl
  · intro hnil
    subst hnil
    rfl
  · intro hne
    unfold AplFile.close
    rw [foldl_write_written, foldl_write_buf, foldl_write_name]
    simp only [newAPLFile, hne]
    simp
    intro h
    exact absurd h hne

/-- Witness for C10: an O_CREATE, O_TRUNC, O_RDWR open of the existing slot
demo followed immediately by Close leaves the store unchanged. -/
theorem apl_close_persists_only_after_write_witness :
    AplFile.close [("demo", "old")]
      (List.foldl AplFile.write (newAPLFile "demo") []) = [("demo", "old")] :=
  (apl_close_persists_only_after_write [("demo", "old")] "demo"
      (O_RDWR ||| O_CREATE ||| O_TRUNC) [] (by decide)).2.2.1 rfl

/-! ## Claim C4: result.<ext> is not a terminator -/

/-- Counterexample to C4: the recognized keyword segments [limit, 5] follow
result.csv, yet CompileSegments succeeds: result.<ext> only sets the output
format and parsing continues. -/
theorem result_ext_terminator_cex :
    CompileSegments noParse "logs" ["result.csv", "limit", "5"] ⟨"1h", 10000, 0, 0⟩ =
      .ok ⟨"logs", "['logs']\n| where _time between (ago(1h) .. now())\n| take 5", "csv"⟩ := by
  decide

/-- Claim C4 amended: a `result.<ext>` segment with a permitted extension
sets the output format and consumption continues on the remaining segments
under the ordinary grammar, so recognized keywords after it are consumed
normally and only a segment that reaches the cursor unrecognized fails;
concretely, [result.csv, wat] errors while [result.csv, limit, 5] compiles. -/
theorem result_ext_sets_format_and_continues :
    (∀ (E : Externals) (mr ml : Int) (ext : String) (rest : List String) (st : CState),
      isFormat ext = true →
      consume E mr ml (("result." ++ ext) :: rest) st =
        consume E mr ml rest { st with format := ext })
    ∧ CompileSegments noParse "logs" ["result.csv", "wat"] ⟨"1h", 10000, 0, 0⟩ =
        .error ("unknown segment: " ++ goQuote "wat")
    ∧ CompileSegments noParse "logs" ["result.csv", "limit", "5"] ⟨"1h", 10000, 0, 0⟩ =
        .ok ⟨"logs", "['logs']\n| where _time between (ago(1h) .. now())\n| take 5", "csv"⟩ := by
  refine ⟨?_, by decide, by decide⟩
  intro E mr ml ext rest st hext
  have h3 : ext = "ndjson" ∨ ext = "csv" ∨ ext = "json" := by
    unfold isFormat at hext
    rcases String.decEq ext "ndjson" with h | h
    · rcases String.decEq ext "csv" with h2 | h2
      · rcases String.decEq ext "json" with h3 | h3
        · simp [h, h2, h3] at hext
        · exact Or.inr (Or.inr h3)
      · exact Or.inr (Or.inl h2)
    · exact Or.inl h
  rcases h3 with h | h | h <;> subst h <;> (rw [consume_cons]; rfl)

/-- Witness for C4's amended theorem: consuming [result.csv, limit, 5] from
the initial state equals consuming [limit, 5] with the format set to csv. -/
theorem result_ext_sets_format_and_continues_witness :
    consume noParse 0 0 ["result.csv", "limit", "5"] initCState =
      consume noParse 0 0 ["limit", "5"] { initCState with format := "csv" } :=
  result_ext_sets_format_and_continues.1 noParse 0 0 "csv" ["limit", "5"] initCState
    (by decide)

/-! ## Claim C3: range validation is skipped when maxRange = 0 -/

/-- Counterexample to C3: with maxRange = 0, a segment list containing
`range ago zzz` compiles successfully even though zzz is not a parseable
duration ( the model's parser maps every input to none ), and a from/to
range with unparseable timestamps compiles too: checkRangeAgo and
checkRangeFromTo return early when maxRange = 0 and never parse anything. -/
theorem range_validation_skipped_cex :
    noParse.parseDuration "zzz" = none
    ∧ CompileSegments noParse "logs" ["range", "ago", "zzz", "result.ndjson"]
        ⟨"1h", 10000, 0, 0⟩ =
      .ok ⟨"logs", "['logs']\n| where _time between (ago(zzz) .. now())\n| take 10000",
        "ndjson"⟩
    ∧ noParse.parseRFC3339 "nope" = none
    ∧ CompileSegments noParse "logs" ["range", "from", "nope", "to", "also", "result.csv"]
        ⟨"1h", 10000, 0, 0⟩ =
      .ok ⟨"logs",
        "['logs']\n| where _time between (datetime(\"nope\") .. datetime(\"also\"))\n| take 10000",
        "csv"⟩ := by
  refine ⟨rfl, by decide, rfl, by decide⟩

/-! ## Claim C2: cache bounds and FIFO eviction -/

def keysOf (items : List (String × List Nat)) : List String := items.map Prod.fst

def itemsBytes (items : List (String × List Nat)) : Nat :=
  (items.map fun e => e.2.length).sum

@[simp] theorem keysOf_nil : keysOf [] = [] := rfl

@[simp] theorem keysOf_cons (e : String × List Nat) (rest : List (String × List Nat)) :
    keysOf (e :: rest) = e.1 :: keysOf rest := rfl

@[simp] theorem keysOf_append (a b : List (String × List Nat)) :
    keysOf (a ++ b) = keysOf a ++ keysOf b := by
  simp [keysOf]

@[simp] theorem itemsBytes_nil : itemsBytes [] = 0 := rfl

@[simp] theorem itemsBytes_cons (e : String × List Nat) (rest : List (String × List Nat)) :
    itemsBytes (e :: rest) = e.2.length + itemsBytes rest := by
  simp [itemsBytes]

@[simp] theorem itemsBytes_append (a b : List (String × List Nat)) :
    itemsBytes (a ++ b) = itemsBytes a + itemsBytes b := by
  simp [itemsBytes]

theorem lookupItem_none_iff (items : List (String × List Nat)) (k : String) :
    lookupItem items k = none ↔ k ∉ keysOf items := by
  induction items with
  | nil => simp [lookupItem]
  | cons e rest ih =>
    by_cases h : e.1 = k
    · subst h
      simp [lookupItem]
    · have h2 : ¬ k = e.1 := fun hk => h hk.symm
      simp [lookupItem, h, h2, ih]

theorem eraseItem_of_not_mem (items : List (String × List Nat)) (k : String) :
    k ∉ keysOf items → eraseItem items k = items := by
  induction items with
  | nil => intro _; rfl
  | cons e rest ih =>
    intro h
    simp only [keysOf_cons, List.mem_cons] at h
    push_neg at h
    have h2 : ¬ e.1 = k := fun he => h.1 he.symm
    simp [eraseItem, h2, ih h.2]

theorem keysOf_eraseItem_nodup (items : List (String × List Nat)) (k : String) :
    (keysOf items).Nodup → keysOf (eraseItem items k) = removeKey (keysOf items) k := by
  induction items with
  | nil => intro _; rfl
  | cons e rest ih =>
    intro hn
    simp only [keysOf_cons, List.nodup_cons] at hn
    by_cases h : e.1 = k
    · subst h
      rw [show eraseItem (e :: rest) e.1 = eraseItem rest e.1 from by simp [eraseItem]]
      rw [eraseItem_of_not_mem rest e.1 hn.1]
      simp [removeKey, keysOf]
    · simp only [eraseItem, if_neg h, keysOf_cons, removeKey, h, if_false]
      rw [ih hn.2]
      simp [keysOf]

theorem removeKey_of_not_mem (l : List String) (k : String) :
    k ∉ l → removeKey l k = l := by
  induction l with
  | nil => intro _; rfl
  | cons x rest ih =>
    intro h
    simp only [List.mem_cons] at h
    push_neg at h
    have h2 : ¬ x = k := fun hx => h.1 hx.symm
    simp [removeKey, h2, ih h.2]

theorem mem_removeKey (l : List String) (k a : String) :
    a ∈ removeKey l k → a ∈ l := by
  induction l with
  | nil => simp [removeKey]
  | cons x rest ih =>
    by_cases h : x = k
    · simp only [removeKey, if_pos h]
      intro ha
      exact List.mem_cons_of_mem x ha
    · simp only [removeKey, if_neg h, List.mem_cons]
      rintro (rfl | ha)
      · exact Or.inl rfl
      · exact Or.inr (ih ha)

theorem removeKey_nodup (l : List String) (k : String) :
    l.Nodup → (removeKey l k).Nodup ∧ k ∉ removeKey l k := by
  induction l with
  | nil => intro _; simp [removeKey]
  | cons x rest ih =>
    intro hn
    simp only [List.nodup_cons] at hn
    by_cases h : x = k
    · subst h
      simp only [removeKey, if_pos rfl]
      exact ⟨hn.2, hn.1⟩
    · simp only [removeKey, if_neg h, List.nodup_cons]
      obtain ⟨ihn, ihk⟩ := ih hn.2
      refine ⟨⟨fun hx => hn.1 (mem_removeKey rest k x hx), ihn⟩, ?_⟩
      simp only [List.mem_cons]
      rintro (rfl | hk)
      · exact h rfl
      · exact ihk hk

theorem itemsBytes_eraseItem (items : List (String × List Nat)) (k : String)
    (v : List Nat) :
    (keysOf items).Nodup → lookupItem items k = some v →
    itemsBytes (eraseItem items k) + v.length = itemsBytes items := by
  induction items with
  | nil => intro _ h; cases h
  | cons e rest ih =>
    intro hn hl
    simp only [keysOf_cons, List.nodup_cons] at hn
    by_cases h : e.1 = k
    · rw [show lookupItem (e :: rest) k = some e.2 from by simp [lookupItem, h]] at hl
      injection hl with hv
      subst hv
      rw [show eraseItem (e :: rest) k = eraseItem rest k from by simp [eraseItem, h]]
      rw [eraseItem_of_not_mem rest k (h ▸ hn.1)]
      simp [Nat.add_comm]
    · rw [show lookupItem (e :: rest) k = lookupItem rest k from by simp [lookupItem, h]] at hl
      rw [show eraseItem (e :: rest) k = e :: eraseItem rest k from by simp [eraseItem, h]]
      simp only [itemsBytes_cons]
      rw [Nat.add_assoc, ih hn.2 hl]

/-- The three cache.Cache fields stay synchronized: the order list is
exactly the key list of the map, it has no duplicates, and the size field is
the byte total of the stored entries. -/
def CacheWF (c : CacheSt) : Prop :=
  c.order = keysOf c.items ∧ c.order.Nodup ∧ c.size = itemsBytes c.items

theorem evictLoop_wf (cfg : CacheCfg) :
    ∀ (order : List String) (items : List (String × List Nat)) (size : Nat),
      order = keysOf items → order.Nodup → size = itemsBytes items →
      (evictLoop cfg order items size).1 = keysOf (evictLoop cfg order items size).2.1
      ∧ (evictLoop cfg order items size).1.Nodup
      ∧ (evictLoop cfg order items size).2.2 = itemsBytes (evictLoop cfg order items size).2.1 := by
  intro order
  induction order with
  | nil =>
    intro items size hk hn hs
    have hitems : items = [] := by
      cases items with
      | nil => rfl
      | cons e rest => exact absurd hk (by simp)
    subst hitems
    by_cases h : shouldEvict cfg ([] : List (String × List Nat)).length size = true
    · simp [evictLoop, h, hs]
    · simp [evictLoop, h, hs]
  | cons kk rest ih =>
    intro items size hk hn hs
    cases items with
    | nil => exact absurd hk (by simp)
    | cons e it =>
      simp only [keysOf_cons] at hk
      injection hk with hk1 hk2
      simp only [List.nodup_cons] at hn
      by_cases h : shouldEvict cfg (e :: it).length size = true
      · simp only [List.length_cons] at h
        have hlk : lookupItem (e :: it) kk = some e.2 := by
          simp [lookupItem, hk1.symm]
        have her : eraseItem (e :: it) kk = it := by
          rw [show eraseItem (e :: it) kk = eraseItem it kk from by simp [eraseItem, hk1.symm]]
          exact eraseItem_of_not_mem it kk (hk2 ▸ hn.1)
        have hstep : evictLoop cfg (kk :: rest) (e :: it) size =
            evictLoop cfg rest it (size - e.2.length) := by
          rw [show evictLoop cfg (kk :: rest) (e :: it) size =
            evictLoop cfg rest (eraseItem (e :: it) kk) (size - e.2.length) from by
              simp [evictLoop, h, hlk]]
          rw [her]
        rw [hstep]
        exact ih it (size - e.2.length) hk2 hn.2 (by simp [hs, itemsBytes_cons])
      · simp only [List.length_cons] at h
        have hstop : evictLoop cfg (kk :: rest) (e :: it) size = (kk :: rest, e :: it, size) := by
          simp [evictLoop, h]
        rw [hstop]
        exact ⟨by simp [hk1, hk2], by simp [List.nodup_cons, hn.1, hn.2], hs⟩

theorem evictLoop_stops (cfg : CacheCfg) :
    ∀ (order : List String) (items : List (String × List Nat)) (size : Nat),
      shouldEvict cfg (evictLoop cfg order items size).2.1.length
          (evictLoop cfg order items size).2.2 = false
      ∨ (evictLoop cfg order items size).1 = [] := by
  intro order
  induction order with
  | nil =>
    intro items size
    by_cases h : shouldEvict cfg items.length size = true
    · right
      simp [evictLoop, h]
    · left
      simp only [evictLoop, if_neg h]
      exact Bool.not_eq_true _ ▸ (by simpa using h)
  | cons kk rest ih =>
    intro items size
    by_cases h : shouldEvict cfg items.length size = true
    · cases hlk : lookupItem items kk with
      | some v =>
        have hstep : evictLoop cfg (kk :: rest) items size =
            evictLoop cfg rest (eraseItem items kk) (size - v.length) := by
          simp [evictLoop, h, hlk]
        rw [hstep]
        exact ih (eraseItem items kk) (size - v.length)
      | none =>
        have hstep : evictLoop cfg (kk :: rest) items size =
            evictLoop cfg rest items size := by
          simp [evictLoop, h, hlk]
        rw [hstep]
        exact ih items size
    · left
      simp only [evictLoop, if_neg h]
      exact Bool.not_eq_true _ ▸ (by simpa using h)

theorem evictLoop_suffix (cfg : CacheCfg) :
    ∀ (order : List String) (items : List (String × List Nat)) (size : Nat),
      ∃ nn, (evictLoop cfg order items size).1 = order.drop nn := by
  intro order
  induction order with
  | nil =>
    intro items size
    refine ⟨0, ?_⟩
    by_cases h : shouldEvict cfg items.length size = true <;> simp [evictLoop, h]
  | cons kk rest ih =>
    intro items size
    by_cases h : shouldEvict cfg items.length size = true
    · cases hlk : lookupItem items kk with
      | some v =>
        obtain ⟨nn, hnn⟩ := ih (eraseItem items kk) (size - v.length)
        exact ⟨nn + 1, by simp [evictLoop, h, hlk, hnn]⟩
      | none =>
        obtain ⟨nn, hnn⟩ := ih items size
        exact ⟨nn + 1, by simp [evictLoop, h, hlk, hnn]⟩
    · exact ⟨0, by simp [evictLoop, h]⟩

theorem setOrd_keys (c : CacheSt) (k : String) (v : List Nat) (h : CacheWF c) :
    setOrd c k = keysOf (assocSet c.items k v)
    ∧ (setOrd c k).Nodup
    ∧ setSize c k v = itemsBytes (assocSet c.items k v) := by
  obtain ⟨ho, hn, hs⟩ := h
  have hkn : (keysOf c.items).Nodup := ho ▸ hn
  cases hlk : lookupItem c.items k with
  | none =>
    have hnm : k ∉ keysOf c.items := (lookupItem_none_iff c.items k).mp hlk
    have her : eraseItem c.items k = c.items := eraseItem_of_not_mem c.items k hnm
    refine ⟨?_, ?_, ?_⟩
    · simp [setOrd, hlk, assocSet, her, ho, keysOf]
    · simp only [setOrd, hlk]
      rw [List.nodup_append]
      exact ⟨hn, List.nodup_singleton k, by simp [ho] ; exact fun hk => hnm hk⟩
    · simp [setSize, hlk, assocSet, her, hs]
  | some old =>
    obtain ⟨hrn, hrk⟩ := removeKey_nodup c.order k hn
    refine ⟨?_, ?_, ?_⟩
    · simp only [setOrd, hlk, assocSet, keysOf_append]
      rw [ho, keysOf_eraseItem_nodup c.items k hkn]
      simp [keysOf]
    · simp only [setOrd, hlk]
      rw [List.nodup_append]
      exact ⟨hrn, List.nodup_singleton k, by simpa using hrk⟩
    · have hb := itemsBytes_eraseItem c.items k old hkn hlk
      have hle : old.length ≤ itemsBytes c.items := by omega
      have hs2 : setSize c k v = c.size - old.length + v.length := by
        simp [setSize, hlk]
      have hrhs : itemsBytes (assocSet c.items k v) =
          itemsBytes (eraseItem c.items k) + v.length := by
        simp [assocSet]
      rw [hs2, hrhs, hs]
      omega

theorem cacheSet_wf (cfg : CacheCfg) (c : CacheSt) (k : String) (v : List Nat)
    (h : CacheWF c) : CacheWF (cacheSet cfg c k v) := by
  obtain ⟨h1, h2, h3⟩ := setOrd_keys c k v h
  have := evictLoop_wf cfg (setOrd c k) (assocSet c.items k v) (setSize c k v) h1 h2 h3
  exact ⟨this.1, this.2.1, this.2.2⟩

theorem cacheSet_bounds (cfg : CacheCfg) (c : CacheSt) (k : String) (v : List Nat)
    (h : CacheWF c) :
    (0 < cfg.maxEntries → ((cacheSet cfg c k v).items.length : Int) ≤ cfg.maxEntries)
    ∧ (0 < cfg.maxBytes → ((itemsBytes (cacheSet cfg c k v).items : Nat) : Int) ≤ cfg.maxBytes) := by
  obtain ⟨h1, h2, h3⟩ := setOrd_keys c k v h
  have hwf := evictLoop_wf cfg (setOrd c k) (assocSet c.items k v) (setSize c k v) h1 h2 h3
  have hstop := evictLoop_stops cfg (setOrd c k) (assocSet c.items k v) (setSize c k v)
  have hit : (cacheSet cfg c k v).items =
      (evictLoop cfg (setOrd c k) (assocSet c.items k v) (setSize c k v)).2.1 := rfl
  cases hstop with
  | inl hse =>
    rw [hit]
    have hsz := hwf.2.2
    unfold shouldEvict at hse
    simp only [Bool.or_eq_false_iff, Bool.and_eq_false_iff, decide_eq_false_iff_not] at hse
    constructor
    · intro hme
      rcases hse.1 with hbad | hok
      · exact absurd hme hbad
      · omega
    · intro hmb
      rcases hse.2 with hbad | hok
      · exact absurd hmb hbad
      · rw [← hsz]
        omega
  | inr hord =>
    have hkeys := hwf.1
    rw [hord] at hkeys
    have : (evictLoop cfg (setOrd c k) (assocSet c.items k v) (setSize c k v)).2.1 = [] := by
      cases hre : (evictLoop cfg (setOrd c k) (assocSet c.items k v) (setSize c k v)).2.1 with
      | nil => rfl
      | cons e rest => rw [hre] at hkeys; exact absurd hkeys.symm (by simp)
    rw [hit, this]
    constructor
    · intro hme; simp; omega
    · intro hmb; simp [itemsBytes]; omega

theorem cacheRun_wf (cfg : CacheCfg) (ops : List (String × List Nat)) :
    CacheWF (cacheRun cfg ops) := by
  have base : CacheWF cacheNew := ⟨rfl, List.nodup_nil, rfl⟩
  unfold cacheRun
  generalize cacheNew = c0 at base ⊢
  induction ops generalizing c0 with
  | nil => exact base
  | cons op rest ih =>
    exact ih (cacheSet cfg c0 op.1 op.2) (cacheSet_wf cfg c0 op.1 op.2 base)

/-- Claim C2: after every finite Set(key, value) sequence on a cache with no
disk mirror, the entry count respects maxEntries and the total stored bytes
respect maxBytes ( when positive ); a Set on a present key unlinks it from
the order list and reinserts it at the tail, and eviction only ever removes
a prefix of the resulting insertion-order list ( FIFO, from the head ). -/
theorem cache_set_bounds_and_fifo :
    ∀ (cfg : CacheCfg) (ops : List (String × List Nat)),
      (0 < cfg.maxEntries → ((cacheRun cfg ops).items.length : Int) ≤ cfg.maxEntries)
      ∧ (0 < cfg.maxBytes → ((itemsBytes (cacheRun cfg ops).items : Nat) : Int) ≤ cfg.maxBytes)
      ∧ (∀ (c : CacheSt) (k : String) (v : List Nat),
          ((lookupItem c.items k).isSome = true →
            setOrd c k = removeKey c.order k ++ [k])
          ∧ (lookupItem c.items k = none → setOrd c k = c.order ++ [k])
          ∧ ∃ nn, (cacheSet cfg c k v).order = (setOrd c k).drop nn) := by
  intro cfg ops
  refine ⟨?_, ?_, ?_⟩
  · intro hme
    cases ops using List.reverseRecOn with
    | nil => simpa using hme.le.trans (le_refl _) |>.trans (by omega)
    | append_singleton init last =>
      have hwf := cacheRun_wf cfg init
      have := (cacheSet_bounds cfg (cacheRun cfg init) last.1 last.2 hwf).1 hme
      simpa [cacheRun, List.foldl_append] using this
  · intro hmb
    cases ops using List.reverseRecOn with
    | nil =>
      simp [cacheRun, cacheNew, itemsBytes]
      omega
    | append_singleton init last =>
      have hwf := cacheRun_wf cfg init
      have := (cacheSet_bounds cfg (cacheRun cfg init) last.1 last.2 hwf).2 hmb
      simpa [cacheRun, List.foldl_append] using this
  · intro c k v
    refine ⟨?_, ?_, ?_⟩
    · intro hsome
      cases hlk : lookupItem c.items k with
      | none => rw [hlk] at hsome; cases hsome
      | some old => simp [setOrd, hlk]
    · intro hnone
      simp [setOrd, hnone]
    · exact evictLoop_suffix cfg (setOrd c k) (assocSet c.items k v) (setSize c k v)

/-- Witness for C2, the spec's eviction scenario: maxEntries = 3, inserting
a, b, c, d ( one byte each ) ends with exactly the keys b, c, d. -/
theorem cache_set_bounds_and_fifo_witness :
    (((cacheRun ⟨3, 0⟩ [("a", [0]), ("b", [1]), ("c", [2]), ("d", [3])]).items.length : Int) ≤ 3)
    ∧ (cacheRun ⟨3, 0⟩ [("a", [0]), ("b", [1]), ("c", [2]), ("d", [3])]).order = ["b", "c", "d"] :=
  ⟨(cache_set_bounds_and_fifo ⟨3, 0⟩ [("a", [0]), ("b", [1]), ("c", [2]), ("d", [3])]).1
      (by decide),
    by decide⟩

/-! ## Claim C6: cache insertion and the maxCacheBytes bound -/

/-- Upstream client used by the C6 scenario: one table, field a, one row
with the string xx; its csv encoding a\nxx\n is 5 bytes. -/
def oversizeClient : String → Except String QResult :=
  fun _ => .ok ⟨[⟨["a"], [[JVal.jStr "xx"]]⟩]⟩

/-- Executor configuration with maxCacheBytes = 1 and no spill threshold. -/
def oversizeCfg : ExecCfg := ⟨"1h", 10000, 1, 0⟩

/-- Counterexample to C6: with useCache set and maxCacheBytes = 1, the
ExecuteAPL path inserts a 5-byte result into the cache anyway: the size
check ( shouldCache ) is consulted only by ExecuteAPLResult. -/
theorem executeAPL_caches_oversize_cex :
    executeAPL oversizeClient oversizeCfg ⟨0, 0⟩ (some cacheNew) "['d']" "csv"
        ⟨true, false, false⟩ =
      .ok (strBytes "a\nxx\n",
        some ⟨[(cacheKey "['d']" "csv", strBytes "a\nxx\n")], [cacheKey "['d']" "csv"], 5⟩)
    ∧ oversizeCfg.maxCacheBytes < ((strBytes "a\nxx\n").length : Int) := by decide

/-- Claim C6 amended: only the ExecuteAPLResult path honours maxCacheBytes:
on a cache miss, an in-memory ( non-spilled ) result is inserted iff
shouldCache allows its byte length; the ExecuteAPL path inserts the encoded
bytes whenever useCache is set, with no size check at all. -/
theorem executor_cache_insertion :
    ∀ (client : String → Except String QResult) (cfg : ExecCfg) (ccfg : CacheCfg)
      (c : CacheSt) (apl format : String) (opts : ExecOptions) (result : QResult)
      (text : String),
      opts.useCache = true →
      cacheGet c (cacheKey (effAPL cfg opts apl) format) = none →
      client (effAPL cfg opts apl) = .ok result →
      (encodeResultToWriter result format = .ok text →
        ¬ (cfg.maxInMemoryBytes > 0 ∧ ((strBytes text).length : Int) > cfg.maxInMemoryBytes) →
        executeAPLResult client cfg ccfg (some c) apl format opts =
          .ok (.bytes (strBytes text),
            some (if shouldCache cfg.maxCacheBytes (strBytes text).length then
                cacheSet ccfg c (cacheKey (effAPL cfg opts apl) format) (strBytes text)
              else c)))
      ∧ (encodeResult result format = .ok text →
        executeAPL client cfg ccfg (some c) apl format opts =
          .ok (strBytes text,
            some (cacheSet ccfg c (cacheKey (effAPL cfg opts apl) format) (strBytes text)))) := by
  intro client cfg ccfg c apl format opts result text huse hmiss hclient
  constructor
  · intro henc hnospill
    unfold executeAPLResult
    rw [huse]
    simp only [hmiss, hclient, henc]
    rw [if_neg hnospill]
    by_cases hsc : shouldCache cfg.maxCacheBytes (strBytes text).length = true
    · simp [huse, hsc]
    · simp only [Bool.not_eq_true] at hsc
      simp [huse, hsc]
  · intro henc
    unfold executeAPL
    rw [huse]
    simp [hmiss, hclient, henc, huse]

/-- Witness for C6's amended theorem: the same 5-byte result through
ExecuteAPLResult with maxCacheBytes = 1 is NOT inserted ( shouldCache
rejects it ), while ExecuteAPL inserts it. -/
theorem executor_cache_insertion_witness :
    executeAPLResult oversizeClient oversizeCfg ⟨0, 0⟩ (some cacheNew) "['d']" "csv"
        ⟨true, false, false⟩ =
      .ok (.bytes (strBytes "a\nxx\n"), some cacheNew) := by
  have h := (executor_cache_insertion oversizeClient oversizeCfg ⟨0, 0⟩ cacheNew "['d']" "csv"
    ⟨true, false, false⟩ ⟨[⟨["a"], [[JVal.jStr "xx"]]⟩]⟩ "a\nxx\n"
    rfl (by decide) rfl).1 (by decide) (by decide)
  rw [h]
  norm_num
  decide

/-! ## Claim C3: per-keyword views of consumeStep -/

theorem consumeStep_range (E : Externals) (mr ml : Int) (rest : List String) (st : CState) :
    consumeStep E mr ml "range" rest st =
      match rest with
      | a1 :: a2 :: rest2 =>
        if a1 = "ago" then
          match checkRangeAgo E a2 mr with
          | .error e => .error e
          | .ok _ => .ok (st.addRange (rangeAgo a2), 2)
        else if a1 = "from" then
          (match rest2 with
          | a3 :: a4 :: _ =>
            if a3 = "to" then
              match checkRangeFromTo E a2 a4 mr with
              | .error e => .error e
              | .ok _ => .ok (st.addRange (rangeFromTo a2 a4), 4)
            else .error "range/from missing to"
          | _ => .error "range/from missing to")
        else .error ("range mode unsupported: " ++ goQuote a1)
      | _ => .error "range missing arguments" := rfl

theorem consumeStep_where (E : Externals) (mr ml : Int) (rest : List String) (st : CState) :
    consumeStep E mr ml "where" rest st =
      match rest with
      | e :: _ =>
        (match decodeExpr e with
        | .error msg => .error ("where decode: " ++ msg)
        | .ok expr => .ok (st.append ("where " ++ expr), 1))
      | [] => .error "where missing expression" := rfl

theorem consumeStep_search (E : Externals) (mr ml : Int) (rest : List String) (st : CState) :
    consumeStep E mr ml "search" rest st =
      match rest with
      | e :: _ =>
        (match decodeExpr e with
        | .error msg => .error ("search decode: " ++ msg)
        | .ok term => .ok (st.append ("search " ++ goQuote (escapeAPLString term)), 1))
      | [] => .error "search missing term" := rfl

theorem consumeStep_summarize (E : Externals) (mr ml : Int) (rest : List String) (st : CState) :
    consumeStep E mr ml "summarize" rest st =
      match rest with
      | e :: rest1 =>
        (match decodeExpr e with
        | .error msg => .error ("summarize decode: " ++ msg)
        | .ok agg =>
          match rest1 with
          | b :: rest2 =>
            if b = "by" then
              match rest2 with
              | f :: _ =>
                (match decodeExpr f with
                | .error msg => .error ("summarize/by decode: " ++ msg)
                | .ok fields => .ok (st.append ("summarize " ++ agg ++ " by " ++ fields), 3))
              | [] => .error "summarize/by missing fields"
            else .ok (st.append ("summarize " ++ agg), 1)
          | [] => .ok (st.append ("summarize " ++ agg), 1))
      | [] => .error "summarize missing agg" := rfl

theorem consumeStep_project (E : Externals) (mr ml : Int) (rest : List String) (st : CState) :
    consumeStep E mr ml "project" rest st =
      match rest with
      | e :: _ =>
        (match decodeExpr e with
        | .error msg => .error ("project decode: " ++ msg)
        | .ok fields => .ok (st.append ("project " ++ fields), 1))
      | [] => .error "project missing fields" := rfl

theorem consumeStep_projectAway (E : Externals) (mr ml : Int) (rest : List String)
    (st : CState) :
    consumeStep E mr ml "project-away" rest st =
      match rest with
      | e :: _ =>
        (match decodeExpr e with
        | .error msg => .error ("project-away decode: " ++ msg)
        | .ok fields => .ok (st.append ("project-away " ++ fields), 1))
      | [] => .error "project-away missing fields" := rfl

theorem consumeStep_order (E : Externals) (mr ml : Int) (rest : List String) (st : CState) :
    consumeStep E mr ml "order" rest st =
      match rest with
      | e :: _ =>
        (match splitFieldDir e with
        | .error msg => .error ("order invalid: " ++ msg)
        | .ok (field, dir) => .ok (st.append ("order by " ++ field ++ " " ++ dir), 1))
      | [] => .error "order missing field:dir" := rfl

theorem consumeStep_limit (E : Externals) (mr ml : Int) (rest : List String) (st : CState) :
    consumeStep E mr ml "limit" rest st =
      match rest with
      | v :: _ =>
        (match goAtoi v with
        | none => .error ("limit invalid: " ++ goQuote v)
        | some n =>
          if n < 0 then .error ("limit invalid: " ++ goQuote v)
          else
            match checkLimit n ml with
            | .error e => .error e
            | .ok _ => .ok ((st.append ("take " ++ toString n)).markLimit, 1))
      | [] => .error "limit missing value" := rfl

theorem consumeStep_top (E : Externals) (mr ml : Int) (rest : List String) (st : CState) :
    consumeStep E mr ml "top" rest st =
      match rest with
      | n :: b :: f :: _ =>
        if b ≠ "by" then .error "top requires n/by/field:dir"
        else
          match goAtoi n with
          | none => .error ("top invalid: " ++ goQuote n)
          | some v =>
            if v < 0 then .error ("top invalid: " ++ goQuote n)
            else
              match checkLimit v ml with
              | .error e => .error e
              | .ok _ =>
                match splitFieldDir f with
                | .error msg => .error ("top invalid: " ++ msg)
                | .ok (field, dir) =>
                  .ok ((st.append ("top " ++ toString v ++ " by " ++ field ++ " " ++ dir)).markLimit, 3)
      | _ => .error "top requires n/by/field:dir" := rfl

theorem consumeStep_format (E : Externals) (mr ml : Int) (rest : List String) (st : CState) :
    consumeStep E mr ml "format" rest st =
      match rest with
      | v :: _ =>
        if isFormat v then .ok ({ st with format := v }, 1)
        else .error ("format invalid: " ++ goQuote v)
      | [] => .error "format missing value" := rfl

/-- consumeStep on a segment that matches no keyword: either the result.
family or an unknown-segment error. -/
theorem consumeStep_default (E : Externals) (mr ml : Int) (seg : String)
    (rest : List String) (st : CState)
    (h1 : ¬ seg = "range") (h2 : ¬ seg = "where") (h3 : ¬ seg = "search")
    (h4 : ¬ seg = "summarize") (h5 : ¬ seg = "project") (h6 : ¬ seg = "project-away")
    (h7 : ¬ seg = "order") (h8 : ¬ seg = "limit") (h9 : ¬ seg = "top")
    (h10 : ¬ seg = "format") :
    consumeStep E mr ml seg rest st =
      if hasPrefixStr seg "result." then
        (if isFormat (trimPrefixStr seg "result.") then
          .ok ({ st with format := trimPrefixStr seg "result." }, 0)
        else .error ("result extension invalid: " ++ goQuote seg))
      else .error ("unknown segment: " ++ goQuote seg) := by
  delta consumeStep
  rw [if_neg h1, if_neg h2, if_neg h3, if_neg h4, if_neg h5, if_neg h6, if_neg h7,
    if_neg h8, if_neg h9, if_neg h10]

/-- Badness of a from/to range pair under the claim: an unparseable start,
an unparseable end, or an end before the start. -/
def FromToBad (E : Externals) (t1 t2 : String) : Prop :=
  E.parseRFC3339 t1 = none ∨ E.parseRFC3339 t2 = none ∨
  ∃ a b, E.parseRFC3339 t1 = some a ∧ E.parseRFC3339 t2 = some b ∧ b < a

/-- A segment list containing `range ago <dur>` with an unparseable duration,
or `range from <t1> to <t2>` with a bad timestamp pair. -/
def BadRangeOcc (E : Externals) (segs : List String) : Prop :=
  (∃ pre dur post, E.parseDuration dur = none ∧
    segs = pre ++ "range" :: "ago" :: dur :: post)
  ∨ (∃ pre t1 t2 post, FromToBad E t1 t2 ∧
    segs = pre ++ "range" :: "from" :: t1 :: "to" :: t2 :: post)

theorem checkRangeAgo_err (E : Externals) (dur : String) (mr : Int) (hmr : 0 < mr)
    (hp : E.parseDuration dur = none) :
    checkRangeAgo E dur mr = .error ("range/ago invalid duration: " ++ goQuote dur) := by
  unfold checkRangeAgo
  rw [if_neg (by omega), hp]

theorem checkRangeFromTo_err (E : Externals) (t1 t2 : String) (mr : Int) (hmr : 0 < mr)
    (hb : FromToBad E t1 t2) :
    ∃ e, checkRangeFromTo E t1 t2 mr = .error e := by
  unfold checkRangeFromTo
  rw [if_neg (by omega : ¬ mr = 0)]
  rcases hb with h | h | ⟨a, b, ha, hb2, hlt⟩
  · rw [h]
    exact ⟨_, rfl⟩
  · cases hp : E.parseRFC3339 t1 with
    | none => exact ⟨_, rfl⟩
    | some a =>
      rw [h]
      exact ⟨_, rfl⟩
  · refine ⟨"range invalid: end before start", ?_⟩
    rw [ha, hb2]
    dsimp only
    rw [if_pos hlt]

/-- A segment that matches no keyword and is not result.-prefixed errors at
the cursor. -/
theorem consume_err_unknown (E : Externals) (mr ml : Int) (seg : String)
    (rest : List String) (st : CState)
    (h1 : ¬ seg = "range") (h2 : ¬ seg = "where") (h3 : ¬ seg = "search")
    (h4 : ¬ seg = "summarize") (h5 : ¬ seg = "project") (h6 : ¬ seg = "project-away")
    (h7 : ¬ seg = "order") (h8 : ¬ seg = "limit") (h9 : ¬ seg = "top")
    (h10 : ¬ seg = "format") (h11 : hasPrefixStr seg "result." = false) :
    consume E mr ml (seg :: rest) st = .error ("unknown segment: " ++ goQuote seg) := by
  rw [consume_cons,
    consumeStep_default E mr ml seg rest st h1 h2 h3 h4 h5 h6 h7 h8 h9 h10]
  rw [if_neg (by simp [h11])]

/-- The segments "ago", "from" and "to" are not keywords: reaching one at
the cursor is an unknown-segment error. -/
theorem consume_err_agofromto (E : Externals) (mr ml : Int) (x : String)
    (hx : x = "ago" ∨ x = "from" ∨ x = "to") (rest : List String) (st : CState) :
    ∃ e, consume E mr ml (x :: rest) st = .error e := by
  rcases hx with rfl | rfl | rfl <;>
    exact ⟨_, consume_err_unknown E mr ml _ rest st (by decide) (by decide) (by decide)
      (by decide) (by decide) (by decide) (by decide) (by decide) (by decide) (by decide)
      (by decide)⟩

/-- A bad `range ago` occurrence at the cursor fails. -/
theorem consume_err_head_ago (E : Externals) (mr ml : Int) (hmr : 0 < mr)
    (dur : String) (hp : E.parseDuration dur = none) (post : List String) (st : CState) :
    ∃ e, consume E mr ml ("range" :: "ago" :: dur :: post) st = .error e := by
  refine ⟨"range/ago invalid duration: " ++ goQuote dur, ?_⟩
  rw [consume_cons, consumeStep_range]
  dsimp only
  rw [if_pos (rfl : ("ago" : String) = "ago"), checkRangeAgo_err E dur mr hmr hp]

/-- A bad `range from/to` occurrence at the cursor fails. -/
theorem consume_err_head_fromto (E : Externals) (mr ml : Int) (hmr : 0 < mr)
    (t1 t2 : String) (hb : FromToBad E t1 t2) (post : List String) (st : CState) :
    ∃ e, consume E mr ml ("range" :: "from" :: t1 :: "to" :: t2 :: post) st = .error e := by
  obtain ⟨e, he⟩ := checkRangeFromTo_err E t1 t2 mr hmr hb
  refine ⟨e, ?_⟩
  rw [consume_cons, consumeStep_range]
  dsimp only
  rw [if_neg (by decide : ¬ ("from" : String) = "ago"),
    if_pos (rfl : ("from" : String) = "from")]
  rw [if_pos (rfl : ("to" : String) = "to"), he]

/-- A successful `where` step advances the cursor by exactly one argument. -/
theorem consumeStep_where_k (E : Externals) (mr ml : Int) (rest : List String)
    (st st2 : CState) (k : Nat)
    (hok : consumeStep E mr ml "where" rest st = Except.ok (st2, k)) : k = 1 := by
  rw [consumeStep_where] at hok
  rcases rest with _ | ⟨e, rest1⟩
  · exact Except.noConfusion hok
  · dsimp only at hok
    rcases hd : decodeExpr e with msg | expr <;> rw [hd] at hok
    · exact Except.noConfusion hok
    · injection hok with h
      injection h with h1 h2
      exact h2.symm

/-- A successful `search` step advances the cursor by exactly one argument. -/
theorem consumeStep_search_k (E : Externals) (mr ml : Int) (rest : List String)
    (st st2 : CState) (k : Nat)
    (hok : consumeStep E mr ml "search" rest st = Except.ok (st2, k)) : k = 1 := by
  rw [consumeStep_search] at hok
  rcases rest with _ | ⟨e, rest1⟩
  · exact Except.noConfusion hok
  · dsimp only at hok
    rcases hd : decodeExpr e with msg | term <;> rw [hd] at hok
    · exact Except.noConfusion hok
    · injection hok with h
      injection h with h1 h2
      exact h2.symm

/-- A successful `project` step advances the cursor by exactly one argument. -/
theorem consumeStep_project_k (E : Externals) (mr ml : Int) (rest : List String)
    (st st2 : CState) (k : Nat)
    (hok : consumeStep E mr ml "project" rest st = Except.ok (st2, k)) : k = 1 := by
  rw [consumeStep_project] at hok
  rcases rest with _ | ⟨e, rest1⟩
  · exact Except.noConfusion hok
  · dsimp only at hok
    rcases hd : decodeExpr e with msg | fields <;> rw [hd] at hok
    · exact Except.noConfusion hok
    · injection hok with h
      injection h with h1 h2
      exact h2.symm

/-- A successful `project-away` step advances the cursor by one argument. -/
theorem consumeStep_projectAway_k (E : Externals) (mr ml : Int) (rest : List String)
    (st st2 : CState) (k : Nat)
    (hok : consumeStep E mr ml "project-away" rest st = Except.ok (st2, k)) : k = 1 := by
  rw [consumeStep_projectAway] at hok
  rcases rest with _ | ⟨e, rest1⟩
  · exact Except.noConfusion hok
  · dsimp only at hok
    rcases hd : decodeExpr e with msg | fields <;> rw [hd] at hok
    · exact Except.noConfusion hok
    · injection hok with h
      injection h with h1 h2
      exact h2.symm

/-- A successful `order` step advances the cursor by exactly one argument. -/
theorem consumeStep_order_k (E : Externals) (mr ml : Int) (rest : List String)
    (st st2 : CState) (k : Nat)
    (hok : consumeStep E mr ml "order" rest st = Except.ok (st2, k)) : k = 1 := by
  rw [consumeStep_order] at hok
  rcases rest with _ | ⟨e, rest1⟩
  · exact Except.noConfusion hok
  · dsimp only at hok
    rcases hd : splitFieldDir e with msg | fd <;> rw [hd] at hok
    · exact Except.noConfusion hok
    · injection hok with h
      injection h with h1 h2
      exact h2.symm

/-- A successful `limit` step advances the cursor by exactly one argument. -/
theorem consumeStep_limit_k (E : Externals) (mr ml : Int) (rest : List String)
    (st st2 : CState) (k : Nat)
    (hok : consumeStep E mr ml "limit" rest st = Except.ok (st2, k)) : k = 1 := by
  rw [consumeStep_limit] at hok
  rcases rest with _ | ⟨v, rest1⟩
  · exact Except.noConfusion hok
  · dsimp only at hok
    rcases ha : goAtoi v with _ | n <;> rw [ha] at hok
    · exact Except.noConfusion hok
    · dsimp only at hok
      by_cases hn : n < 0
      · rw [if_pos hn] at hok
        exact Except.noConfusion hok
      · rw [if_neg hn] at hok
        rcases hc : checkLimit n ml with e | u <;> rw [hc] at hok
        · exact Except.noConfusion hok
        · injection hok with h
          injection h with h1 h2
          exact h2.symm

/-- A successful `format` step advances the cursor by exactly one argument. -/
theorem consumeStep_format_k (E : Externals) (mr ml : Int) (rest : List String)
    (st st2 : CState) (k : Nat)
    (hok : consumeStep E mr ml "format" rest st = Except.ok (st2, k)) : k = 1 := by
  rw [consumeStep_format] at hok
  rcases rest with _ | ⟨v, rest1⟩
  · exact Except.noConfusion hok
  · dsimp only at hok
    by_cases hf : isFormat v = true
    · rw [if_pos hf] at hok
      injection hok with h
      injection h with h1 h2
      exact h2.symm
    · rw [if_neg hf] at hok
      exact Except.noConfusion hok

/-- A successful `summarize` step consumes one argument, or three when the
second following segment is the literal `by`. -/
theorem consumeStep_summarize_k (E : Externals) (mr ml : Int) (rest : List String)
    (st st2 : CState) (k : Nat)
    (hok : consumeStep E mr ml "summarize" rest st = Except.ok (st2, k)) :
    k = 1 ∨ (k = 3 ∧ ∃ e f rest3, rest = e :: "by" :: f :: rest3) := by
  rw [consumeStep_summarize] at hok
  rcases rest with _ | ⟨e, rest1⟩
  · exact Except.noConfusion hok
  dsimp only at hok
  rcases hd : decodeExpr e with msg | agg <;> rw [hd] at hok
  · exact Except.noConfusion hok
  dsimp only at hok
  rcases rest1 with _ | ⟨b, rest2⟩
  · injection hok with h
    injection h with h1 h2
    exact Or.inl h2.symm
  dsimp only at hok
  by_cases hb : b = "by"
  · rw [if_pos hb] at hok
    rcases rest2 with _ | ⟨f, rest3⟩
    · exact Except.noConfusion hok
    dsimp only at hok
    rcases hf : decodeExpr f with msg | fields <;> rw [hf] at hok
    · exact Except.noConfusion hok
    injection hok with h
    injection h with h1 h2
    exact Or.inr ⟨h2.symm, e, f, rest3, by rw [hb]⟩
  · rw [if_neg hb] at hok
    injection hok with h
    injection h with h1 h2
    exact Or.inl h2.symm

/-- A successful `top` step consumes exactly three arguments, the second of
which is the literal `by`. -/
theorem consumeStep_top_k (E : Externals) (mr ml : Int) (rest : List String)
    (st st2 : CState) (k : Nat)
    (hok : consumeStep E mr ml "top" rest st = Except.ok (st2, k)) :
    k = 3 ∧ ∃ n f rest3, rest = n :: "by" :: f :: rest3 := by
  rw [consumeStep_top] at hok
  rcases rest with _ | ⟨n, _ | ⟨b, _ | ⟨f, rest3⟩⟩⟩
  · exact Except.noConfusion hok
  · exact Except.noConfusion hok
  · exact Except.noConfusion hok
  dsimp only at hok
  by_cases hb : b = "by"
  · rw [if_neg (by simp [hb] : ¬ (b ≠ "by"))] at hok
    rcases ha : goAtoi n with _ | v <;> rw [ha] at hok
    · exact Except.noConfusion hok
    dsimp only at hok
    by_cases hv : v < 0
    · rw [if_pos hv] at hok
      exact Except.noConfusion hok
    rw [if_neg hv] at hok
    rcases hc : checkLimit v ml with e | u <;> rw [hc] at hok
    · exact Except.noConfusion hok
    dsimp only at hok
    rcases hs : splitFieldDir f with msg | fd <;> rw [hs] at hok
    · exact Except.noConfusion hok
    injection hok with h
    injection h with h1 h2
    exact ⟨h2.symm, n, f, rest3, by rw [hb]⟩
  · rw [if_pos (by simp [hb] : b ≠ "by")] at hok
    exact Except.noConfusion hok

/-- A successful `range` step consumes two arguments in ago mode and four in
from/to mode, with the mode keywords at fixed offsets. -/
theorem consumeStep_range_k (E : Externals) (mr ml : Int) (rest : List String)
    (st st2 : CState) (k : Nat)
    (hok : consumeStep E mr ml "range" rest st = Except.ok (st2, k)) :
    (k = 2 ∧ ∃ a2 rest2, rest = "ago" :: a2 :: rest2) ∨
      (k = 4 ∧ ∃ a2 a4 rest4, rest = "from" :: a2 :: "to" :: a4 :: rest4) := by
  rw [consumeStep_range] at hok
  rcases rest with _ | ⟨a1, _ | ⟨a2, rest2⟩⟩
  · exact Except.noConfusion hok
  · exact Except.noConfusion hok
  dsimp only at hok
  by_cases h1 : a1 = "ago"
  · rw [if_pos h1] at hok
    rcases hc : checkRangeAgo E a2 mr with e | u <;> rw [hc] at hok
    · exact Except.noConfusion hok
    · injection hok with h
      injection h with hst hk
      exact Or.inl ⟨hk.symm, a2, rest2, by rw [h1]⟩
  rw [if_neg h1] at hok
  by_cases h2 : a1 = "from"
  · rw [if_pos h2] at hok
    rcases rest2 with _ | ⟨a3, _ | ⟨a4, rest4⟩⟩
    · exact Except.noConfusion hok
    · exact Except.noConfusion hok
    dsimp only at hok
    by_cases h3 : a3 = "to"
    · rw [if_pos h3] at hok
      rcases hc : checkRangeFromTo E a2 a4 mr with e | u <;> rw [hc] at hok
      · exact Except.noConfusion hok
      · injection hok with h
        injection h with hst hk
        exact Or.inr ⟨hk.symm, a2, a4, rest4, by rw [h2, h3]⟩
    · rw [if_neg h3] at hok
      exact Except.noConfusion hok
  · rw [if_neg h2] at hok
    exact Except.noConfusion hok

/-- A successful step on a non-keyword segment ( the result. family ) leaves
the cursor on the next segment. -/
theorem consumeStep_default_k (E : Externals) (mr ml : Int) (seg : String)
    (rest : List String) (st st2 : CState) (k : Nat)
    (h1 : ¬ seg = "range") (h2 : ¬ seg = "where") (h3 : ¬ seg = "search")
    (h4 : ¬ seg = "summarize") (h5 : ¬ seg = "project") (h6 : ¬ seg = "project-away")
    (h7 : ¬ seg = "order") (h8 : ¬ seg = "limit") (h9 : ¬ seg = "top")
    (h10 : ¬ seg = "format")
    (hok : consumeStep E mr ml seg rest st = Except.ok (st2, k)) : k = 0 := by
  rw [consumeStep_default E mr ml seg rest st h1 h2 h3 h4 h5 h6 h7 h8 h9 h10] at hok
  by_cases hp : hasPrefixStr seg "result." = true
  · rw [if_pos hp] at hok
    by_cases hf : isFormat (trimPrefixStr seg "result.") = true
    · rw [if_pos hf] at hok
      injection hok with h
      injection h with ha hb
      exact hb.symm
    · rw [if_neg hf] at hok
      exact Except.noConfusion hok
  · rw [if_neg hp] at hok
    exact Except.noConfusion hok

/-- Dropping at most the length of the first summand distributes over an
append. -/
theorem drop_append_le {α : Type} : ∀ (l1 l2 : List α) (k : Nat), k ≤ l1.length →
    (l1 ++ l2).drop k = l1.drop k ++ l2
  | _, _, 0, _ => by simp
  | [], _, k + 1, hk => absurd hk (by simp)
  | a :: l1, l2, k + 1, hk => by
    rw [List.cons_append]
    show (l1 ++ l2).drop k = l1.drop k ++ l2
    exact drop_append_le l1 l2 k (by simpa using hk)

/-- After any successful step taken with a bad-range occurrence somewhere to
the right of the cursor, either the whole occurrence is still to the right of
the new cursor, or the cursor has landed exactly on the mode word of the
occurrence. -/
theorem consumeStep_ok_drop (E : Externals) (mr ml : Int) (seg m : String)
    (tail pre post : List String) (st st2 : CState) (k : Nat)
    (hm : m = "ago" ∨ m = "from")
    (hok : consumeStep E mr ml seg (pre ++ "range" :: m :: (tail ++ post)) st =
      Except.ok (st2, k)) :
    k ≤ pre.length ∨
      (pre ++ "range" :: m :: (tail ++ post)).drop k = m :: (tail ++ post) := by
  have hmby : ¬ m = "by" := by rcases hm with rfl | rfl <;> decide
  have hmto : ¬ m = "to" := by rcases hm with rfl | rfl <;> decide
  by_cases h1 : seg = "range"
  · subst h1
    rcases consumeStep_range_k E mr ml _ st st2 k hok with
      ⟨hk, a2, rest2, hr⟩ | ⟨hk, a2, a4, rest4, hr⟩
    · subst hk
      rcases pre with _ | ⟨p, _ | ⟨q, pre2⟩⟩
      · injection hr with hh _
        exact absurd hh (by decide)
      · exact Or.inr rfl
      · exact Or.inl (Nat.le_add_left 2 pre2.length)
    · subst hk
      rcases pre with _ | ⟨p, _ | ⟨q, _ | ⟨r, _ | ⟨s, pre2⟩⟩⟩⟩
      · injection hr with hh _
        exact absurd hh (by decide)
      · injection hr with _ hr1
        injection hr1 with _ hr2
        injection hr2 with hh _
        exact absurd hh hmto
      · injection hr with _ hr1
        injection hr1 with _ hr2
        injection hr2 with hh _
        exact absurd hh (by decide)
      · exact Or.inr rfl
      · exact Or.inl (Nat.le_add_left 4 pre2.length)
  by_cases h2 : seg = "where"
  · subst h2
    rcases consumeStep_where_k E mr ml _ st st2 k hok with rfl
    rcases pre with _ | ⟨p, pre2⟩
    · exact Or.inr rfl
    · exact Or.inl (Nat.le_add_left 1 pre2.length)
  by_cases h3 : seg = "search"
  · subst h3
    rcases consumeStep_search_k E mr ml _ st st2 k hok with rfl
    rcases pre with _ | ⟨p, pre2⟩
    · exact Or.inr rfl
    · exact Or.inl (Nat.le_add_left 1 pre2.length)
  by_cases h4 : seg = "summarize"
  · subst h4
    rcases consumeStep_summarize_k E mr ml _ st st2 k hok with rfl | ⟨hk, e, f, rest3, hr⟩
    · rcases pre with _ | ⟨p, pre2⟩
      · exact Or.inr rfl
      · exact Or.inl (Nat.le_add_left 1 pre2.length)
    · subst hk
      rcases pre with _ | ⟨p, _ | ⟨q, _ | ⟨r, pre2⟩⟩⟩
      · injection hr with _ hr1
        injection hr1 with hh _
        exact absurd hh hmby
      · injection hr with _ hr1
        injection hr1 with hh _
        exact absurd hh (by decide)
      · exact Or.inr rfl
      · exact Or.inl (Nat.le_add_left 3 pre2.length)
  by_cases h5 : seg = "project"
  · subst h5
    rcases consumeStep_project_k E mr ml _ st st2 k hok with rfl
    rcases pre with _ | ⟨p, pre2⟩
    · exact Or.inr rfl
    · exact Or.inl (Nat.le_add_left 1 pre2.length)
  by_cases h6 : seg = "project-away"
  · subst h6
    rcases consumeStep_projectAway_k E mr ml _ st st2 k hok with rfl
    rcases pre with _ | ⟨p, pre2⟩
    · exact Or.inr rfl
    · exact Or.inl (Nat.le_add_left 1 pre2.length)
  by_cases h7 : seg = "order"
  · subst h7
    rcases consumeStep_order_k E mr ml _ st st2 k hok with rfl
    rcases pre with _ | ⟨p, pre2⟩
    · exact Or.inr rfl
    · exact Or.inl (Nat.le_add_left 1 pre2.length)
  by_cases h8 : seg = "limit"
  · subst h8
    rcases consumeStep_limit_k E mr ml _ st st2 k hok with rfl
    rcases pre with _ | ⟨p, pre2⟩
    · exact Or.inr rfl
    · exact Or.inl (Nat.le_add_left 1 pre2.length)
  by_cases h9 : seg = "top"
  · subst h9
    obtain ⟨hk, n, f, rest3, hr⟩ := consumeStep_top_k E mr ml _ st st2 k hok
    subst hk
    rcases pre with _ | ⟨p, _ | ⟨q, _ | ⟨r, pre2⟩⟩⟩
    · injection hr with _ hr1
      injection hr1 with hh _
      exact absurd hh hmby
    · injection hr with _ hr1
      injection hr1 with hh _
      exact absurd hh (by decide)
    · exact Or.inr rfl
    · exact Or.inl (Nat.le_add_left 3 pre2.length)
  by_cases h10 : seg = "format"
  · subst h10
    rcases consumeStep_format_k E mr ml _ st st2 k hok with rfl
    rcases pre with _ | ⟨p, pre2⟩
    · exact Or.inr rfl
    · exact Or.inl (Nat.le_add_left 1 pre2.length)
  · rcases consumeStep_default_k E mr ml seg _ st st2 k
      h1 h2 h3 h4 h5 h6 h7 h8 h9 h10 hok with rfl
    exact Or.inl (Nat.zero_le _)

/-- The consumption loop fails on every segment list containing a range
occurrence whose head placement fails, because consumption from the left can
only keep the occurrence intact or land exactly on its mode word, which is
itself an unknown segment. -/
theorem consume_err_of_occ (E : Externals) (mr ml : Int) (m : String) (tail : List String)
    (hm : m = "ago" ∨ m = "from")
    (hhead : ∀ (post : List String) (st : CState),
      ∃ e, consume E mr ml ("range" :: m :: (tail ++ post)) st = Except.error e) :
    ∀ (n : Nat) (l : List String) (st : CState), l.length ≤ n →
      (∃ pre post, l = pre ++ "range" :: m :: (tail ++ post)) →
      ∃ e, consume E mr ml l st = Except.error e := by
  intro n
  induction n with
  | zero =>
    intro l st hlen hocc
    obtain ⟨pre, post, rfl⟩ := hocc
    rw [Nat.le_zero, List.length_eq_zero] at hlen
    simp at hlen
  | succ n ih =>
    intro l st hlen hocc
    obtain ⟨pre, post, rfl⟩ := hocc
    rcases pre with _ | ⟨seg, pre1⟩
    · exact hhead post st
    rw [List.cons_append]
    rcases hstep : consumeStep E mr ml seg (pre1 ++ "range" :: m :: (tail ++ post)) st with
      e | ⟨st2, k⟩
    · exact ⟨e, by rw [consume_cons, hstep]⟩
    have hcons : consume E mr ml (seg :: (pre1 ++ "range" :: m :: (tail ++ post))) st =
        consume E mr ml ((pre1 ++ "range" :: m :: (tail ++ post)).drop k) st2 := by
      rw [consume_cons, hstep]
    rcases consumeStep_ok_drop E mr ml seg m tail pre1 post st st2 k hm hstep with hk | hdrop
    · rw [hcons, drop_append_le _ _ k hk]
      apply ih
      · have hl : (seg :: (pre1 ++ "range" :: m :: (tail ++ post))).length ≤ n + 1 := by
          rw [← List.cons_append]
          exact hlen
        simp only [List.length_append, List.length_cons, List.length_drop] at hl ⊢
        omega
      · exact ⟨pre1.drop k, post, rfl⟩
    · rw [hcons, hdrop]
      refine consume_err_agofromto E mr ml m ?_ (tail ++ post) st2
      rcases hm with h | h
      · exact Or.inl h
      · exact Or.inr (Or.inl h)

/-- With a positive maxRange, the consumption loop fails on every segment
list containing a bad range occurrence, from any starting state. -/
theorem consume_err_of_badRangeOcc (E : Externals) (mr ml : Int) (hmr : 0 < mr)
    (segs : List String) (st : CState) (hocc : BadRangeOcc E segs) :
    ∃ e, consume E mr ml segs st = Except.error e := by
  rcases hocc with ⟨pre, dur, post, hdur, rfl⟩ | ⟨pre, t1, t2, post, hbad, rfl⟩
  · exact consume_err_of_occ E mr ml "ago" [dur] (Or.inl rfl)
      (fun post1 st1 => consume_err_head_ago E mr ml hmr dur hdur post1 st1)
      (pre ++ "range" :: "ago" :: dur :: post).length _ st le_rfl
      ⟨pre, post, rfl⟩
  · exact consume_err_of_occ E mr ml "from" [t1, "to", t2] (Or.inr rfl)
      (fun post1 st1 => consume_err_head_fromto E mr ml hmr t1 t2 hbad post1 st1)
      (pre ++ "range" :: "from" :: t1 :: "to" :: t2 :: post).length _ st le_rfl
      ⟨pre, post, rfl⟩

/-- C3 ( amended ): when maxRange is positive, CompileSegments fails on every
segment list containing `range ago <dur>` with an unparseable duration or
`range from <t1> to <t2>` with an unparseable or inverted timestamp pair;
the claim's maxRange = 0 case is refuted by range_validation_skipped_cex. -/
theorem range_validation_requires_maxrange (E : Externals) (ds : String)
    (segs : List String) (opts : Options) (hmr : 0 < opts.maxRange)
    (hocc : BadRangeOcc E segs) :
    ∃ e, CompileSegments E ds segs opts = Except.error e := by
  by_cases hd : ds = ""
  · refine ⟨"dataset is required", ?_⟩
    simp only [CompileSegments, if_pos hd]
  · obtain ⟨e, he⟩ :=
      consume_err_of_badRangeOcc E opts.maxRange opts.maxLimit hmr segs initCState hocc
    refine ⟨e, ?_⟩
    simp only [CompileSegments, if_neg hd]
    rw [he]
    rfl

/-- Witness for C3: maxRange = 1 with the unparseable duration zzz, placed
after a where segment, makes CompileSegments fail. -/
theorem range_validation_requires_maxrange_witness :
    (0 : Int) < (Options.mk "1h" 10000 1 0).maxRange
    ∧ BadRangeOcc noParse ["where", "ok", "range", "ago", "zzz"]
    ∧ ∃ e, CompileSegments noParse "logs" ["where", "ok", "range", "ago", "zzz"]
        (Options.mk "1h" 10000 1 0) = Except.error e :=
  ⟨by decide, Or.inl ⟨["where", "ok"], "zzz", [], rfl, rfl⟩,
    range_validation_requires_maxrange noParse "logs"
      ["where", "ok", "range", "ago", "zzz"] (Options.mk "1h" 10000 1 0)
      (by decide) (Or.inl ⟨["where", "ok"], "zzz", [], rfl, rfl⟩)⟩

end AxiomFS